import Mathlib

/-!
# Verification of the tna-js sequence clustering engine

A shallow embedding of the clustering core of the `tna-js` repository
(file `src/analysis/cluster.ts` and the types it uses): the sequence
normalizer, the dissimilarity library, the distance-matrix builders,
the PAM and hierarchical solvers, the silhouette scorer and the
clustering facade.  JavaScript floating point numbers are modelled by
exact rationals (`ℚ`) where the source only performs field operations,
and by real numbers (`ℝ`) where the source calls `Math.sqrt`/`Math.exp`.
Integer-valued dynamic programs (`levenshteinDistance`, `osaDistance`,
`lcsDistance`, `qgramDistance`) are modelled over `ℕ`/`ℤ`.  Mutable
arrays become folds; mutable matrices become functional updates.
-/

namespace Tna

/-- The private sentinel token standing for missing values
(`const SENTINEL = '\0__NA__'` in the source). -/
def SENTINEL : String := "\x00__NA__"

/-- `toTokenLists`: maps raw sequences to canonical token lists,
replacing `null`, the empty string and declared NA symbols by the
sentinel. -/
def toTokenLists (data : List (List (Option String))) (naSyms : List String) :
    List (List String) :=
  data.map (fun row => row.map (fun val =>
    match val with
    | none => SENTINEL
    | some s => if s = "" then SENTINEL else if s ∈ naSyms then SENTINEL else s))

/-- `effectiveLength`: position of the last non-sentinel token
(the loop `for i: if seq[i] !== SENTINEL last = i + 1`). -/
def effectiveLength (seq : List String) : ℕ :=
  (List.range seq.length).foldl
    (fun last i => if seq.getD i "" ≠ SENTINEL then i + 1 else last) 0

/-- `hammingDistance`: pads the shorter sequence with the sentinel, then
sums `1` (or `exp (-lambda * i)` when weighted) over mismatch positions. -/
noncomputable def hammingDistance (a b : List String) (weighted : Bool)
    (lambda : ℝ) : ℝ :=
  let maxLen := max a.length b.length
  let aPad := a ++ List.replicate (maxLen - a.length) SENTINEL
  let bPad := b ++ List.replicate (maxLen - b.length) SENTINEL
  (List.range maxLen).foldl
    (fun dist i =>
      if aPad.getD i "" ≠ bPad.getD i "" then
        dist + (if weighted then Real.exp (-lambda * i) else 1)
      else dist) 0

/-- `levenshteinDistance` with the R TNA inverted substitution cost
(`cost = 1` on a match, `0` on a mismatch).  The two row arrays of the
source become the fold state; `curr[0] = i` is the singleton start of
the inner fold and `curr[j]` is appended per column. -/
def levenshteinDistance (a b : List String) (lenA? lenB? : Option ℕ) : ℕ :=
  let m := lenA?.getD a.length
  let n := lenB?.getD b.length
  let final := (List.range' 1 m).foldl
    (fun prev i =>
      (List.range' 1 n).foldl
        (fun curr j =>
          let cost := if a.getD (i - 1) "" = b.getD (j - 1) "" then 1 else 0
          curr ++ [min (prev.getD j 0 + 1)
            (min (curr.getD (j - 1) 0 + 1) (prev.getD (j - 1) 0 + cost))])
        [i])
    (List.range (n + 1))
  final.getD n 0

/-- The OSA dynamic-programming table: `osaTable a b i j` is the entry
`d[i][j]` of the source.  Every table entry is a function of entries with
strictly smaller index sum, so the row-by-row fill of the source is
equivalent to this recursion.  The inverted cost convention
(`1` on match) is kept. -/
def osaTable (a b : List String) : ℕ → ℕ → ℕ
  | 0, j => j
  | i + 1, 0 => i + 1
  | i + 1, j + 1 =>
    let cost := if a.getD i "" = b.getD j "" then 1 else 0
    let base := min (osaTable a b i (j + 1) + 1)
      (min (osaTable a b (i + 1) j + 1) (osaTable a b i j + cost))
    if 1 ≤ i ∧ 1 ≤ j ∧ a.getD i "" = b.getD (j - 1) "" ∧
        a.getD (i - 1) "" = b.getD j "" then
      min base (osaTable a b (i - 1) (j - 1) + cost)
    else base
  termination_by i j => i + j
  decreasing_by all_goals omega

/-- `osaDistance`: guards for empty effective lengths, then reads the
table corner. -/
def osaDistance (a b : List String) (lenA? lenB? : Option ℕ) : ℕ :=
  let m := lenA?.getD a.length
  let n := lenB?.getD b.length
  if m = 0 then n else if n = 0 then m else osaTable a b m n

/-- Largest index `i'` with `1 ≤ i' ≤ bound` and `l[i' - 1] = t`
(`0` when there is none).  This is the value of the mutable last-seen
trackers `da`/`db` of the source `dlDistance` at the moment they are
read: `da.get t` holds the last processed row whose token equals `t`,
and `db` holds the last earlier column of the current row that matched. -/
def lastMatch (l : List String) (t : String) : ℕ → ℕ
  | 0 => 0
  | bound + 1 => if l.getD bound "" = t then bound + 1 else lastMatch l t bound

/-- The last-seen tracker never exceeds its bound. -/
lemma lastMatch_le (l : List String) (t : String) :
    ∀ bound, lastMatch l t bound ≤ bound := by
  intro bound
  induction bound with
  | zero => simp [lastMatch]
  | succ b ih =>
    simp only [lastMatch]
    split
    · omega
    · omega

/-- The Damerau-Levenshtein table of the source (`(m+2) x (n+2)` with a
sentinel row/column holding `maxDist`): `dlTable a b md i j` is `d[i][j]`.
Entries are over `ℤ`, exactly as the JavaScript number arithmetic.
Each entry depends only on entries at lexicographically smaller index
pairs, so the row-major fill is equivalent to the recursion. -/
def dlTable (a b : List String) (md : ℤ) : ℕ → ℕ → ℤ
  | 0, _ => md
  | _ + 1, 0 => md
  | 1, j + 1 => (j : ℤ)
  | i + 2, 1 => (i : ℤ) + 1
  | i + 2, j + 2 =>
    let cost : ℤ := if a.getD i "" = b.getD j "" then 0 else 1
    let i1 := lastMatch a (b.getD j "") i
    let j1 := lastMatch b (a.getD i "") j
    min (min (dlTable a b md (i + 1) (j + 1) + cost)
      (dlTable a b md (i + 2) (j + 1) + 1))
      (min (dlTable a b md (i + 1) (j + 2) + 1)
        (dlTable a b md i1 j1 +
          (((i : ℤ) + 1) - i1 - 1) + 1 + (((j : ℤ) + 1) - j1 - 1)))
  termination_by i j => (i, j)
  decreasing_by
    all_goals simp_wf
    all_goals try omega
    all_goals have h1 := lastMatch_le a (b[j]?.getD "") i
    all_goals omega

/-- `dlDistance`: full Damerau-Levenshtein with the conventional cost
(`0` on match). -/
def dlDistance (a b : List String) (lenA? lenB? : Option ℕ) : ℤ :=
  let m := lenA?.getD a.length
  let n := lenB?.getD b.length
  if m = 0 then (n : ℤ)
  else if n = 0 then (m : ℤ)
  else dlTable a b ((m : ℤ) + n) (m + 1) (n + 1)

/-- Length of the longest common subsequence of the effective prefixes
(the DP of `lcsDistance` in the source, before the final subtraction). -/
def lcsLen (a b : List String) (m n : ℕ) : ℕ :=
  let final := (List.range' 1 m).foldl
    (fun prev i =>
      (List.range' 1 n).foldl
        (fun curr j =>
          let v := if a.getD (i - 1) "" = b.getD (j - 1) "" then
              prev.getD (j - 1) 0 + 1
            else max (prev.getD j 0) (curr.getD (j - 1) 0)
          curr ++ [v])
        [0])
    (List.replicate (n + 1) 0)
  final.getD n 0

/-- `lcsDistance = max(m, n) - lcs_length`, over `ℤ` exactly as the
JavaScript subtraction. -/
def lcsDistance (a b : List String) (lenA? lenB? : Option ℕ) : ℤ :=
  let m := lenA?.getD a.length
  let n := lenB?.getD b.length
  ((max m n : ℕ) : ℤ) - lcsLen a b m n

/-- The list of q-grams of the effective prefix, each joined with the
null character (`getQgrams` builds the same multiset as a frequency map). -/
def gramsList (seq : List String) (len? : Option ℕ) (q : ℕ) : List String :=
  let n := len?.getD seq.length
  (List.range (n + 1 - q)).map
    (fun i => String.intercalate "\x00" ((seq.drop i).take q))

/-- Frequency of one q-gram (`profile.get gram` of the source). -/
def qgramCount (seq : List String) (len? : Option ℕ) (q : ℕ) (g : String) : ℕ :=
  (gramsList seq len? q).count g

/-- The union of the q-gram keys of both profiles (`allKeys`). -/
def qgramKeys (a b : List String) (lenA? lenB? : Option ℕ) : Finset String :=
  (gramsList a lenA? 1).toFinset ∪ (gramsList b lenB? 1).toFinset

/-- `qgramDistance`: L1 distance between the unigram profiles.  The JS
`Math.abs` of a difference of counts is `Int.natAbs`. -/
def qgramDistance (a b : List String) (lenA? lenB? : Option ℕ) : ℕ :=
  ∑ g ∈ qgramKeys a b lenA? lenB?,
    ((qgramCount a lenA? 1 g : ℤ) - qgramCount b lenB? 1 g).natAbs

/-- `cosineDistance`: `1 - dot / (sqrt normA * sqrt normB)` on unigram
profiles, `1` when either profile is all-zero.  `dot`, `normA`, `normB`
are the integer accumulators of the source. -/
noncomputable def cosineDistance (a b : List String) (lenA? lenB? : Option ℕ) : ℝ :=
  let keys := qgramKeys a b lenA? lenB?
  let dot : ℕ := ∑ g ∈ keys, qgramCount a lenA? 1 g * qgramCount b lenB? 1 g
  let normA : ℕ := ∑ g ∈ keys, qgramCount a lenA? 1 g * qgramCount a lenA? 1 g
  let normB : ℕ := ∑ g ∈ keys, qgramCount b lenB? 1 g * qgramCount b lenB? 1 g
  if normA = 0 ∨ normB = 0 then 1
  else 1 - (dot : ℝ) / (Real.sqrt normA * Real.sqrt normB)

/-- `jaccardDistance`: `1 - |A ∩ B| / |A ∪ B|` on unigram supports,
`0` when the union is empty. -/
def jaccardDistance (a b : List String) (lenA? lenB? : Option ℕ) : ℚ :=
  let setA := (gramsList a lenA? 1).toFinset
  let setB := (gramsList b lenB? 1).toFinset
  let inter := (setA ∩ setB).card
  let union := setA.card + setB.card - inter
  if union = 0 then 0 else 1 - (inter : ℚ) / union

/-- State of the Jaro match-finding pass: the `bMatched` flag array, the
`aMatched` flags in processing order, and the `matches` counter. -/
structure JwState where
  bm : List Bool
  am : List Bool
  mcount : ℕ
  deriving DecidableEq

/-- The inner scan of the match-finding pass: first `j` in `[lo, hi]`
with `!bMatched[j]` and `a[i] = b[j]` (the `break` of the source makes
it a first-hit search). -/
def jwFindMatch (ai : String) (b : List String) (bm : List Bool)
    (lo hi : ℕ) : Option ℕ :=
  (List.range' lo (hi + 1 - lo)).find?
    (fun j => !(bm.getD j true) && decide (b.getD j "" = ai))

/-- One step of the match-finding pass for row `i`. -/
def jwMatchStep (a b : List String) (n W : ℕ) (st : JwState) (i : ℕ) : JwState :=
  let lo := i - W
  let hi := min (n - 1) (i + W)
  match jwFindMatch (a.getD i "") b st.bm lo hi with
  | some j => ⟨st.bm.set j true, st.am ++ [true], st.mcount + 1⟩
  | none => ⟨st.bm, st.am ++ [false], st.mcount⟩

/-- The full match-finding pass over rows `0 .. m-1`. -/
def jwMatchFold (a b : List String) (m n W : ℕ) : JwState :=
  (List.range m).foldl (jwMatchStep a b n W) ⟨List.replicate n false, [], 0⟩

/-- Tokens at flagged positions, in order.  The transposition-counting
loop of the source walks the matched positions of `a` and of `b` in
parallel, which is exactly a walk over these two lists. -/
def maskTokens (l : List String) (flags : List Bool) (len : ℕ) : List String :=
  (List.range len).filterMap
    (fun i => if flags.getD i false then some (l.getD i "") else none)

/-- Transposition count: mismatches between the matched tokens of `a`
and the matched tokens of `b`, walked in parallel. -/
def jwTranspositions (a b : List String) (m n : ℕ) (st : JwState) : ℕ :=
  ((maskTokens a st.am m).zip (maskTokens b st.bm n)).countP
    (fun p => decide (p.1 ≠ p.2))

/-- `jaroWinklerDistance` (the engine calls it with `p = 0`, plain Jaro).
All arithmetic is rational. -/
def jaroWinklerDistance (a b : List String) (p : ℚ) (lenA? lenB? : Option ℕ) : ℚ :=
  let m := lenA?.getD a.length
  let n := lenB?.getD b.length
  if m = 0 ∧ n = 0 then 0
  else if m = 0 ∨ n = 0 then 1
  else
    let W := max m n / 2 - 1
    let st := jwMatchFold a b m n W
    if st.mcount = 0 then 1
    else
      let t := jwTranspositions a b m n st
      let jaroSim : ℚ := ((st.mcount : ℚ) / m + (st.mcount : ℚ) / n +
        ((st.mcount : ℚ) - (t : ℚ) / 2) / st.mcount) / 3
      if p = 0 then 1 - jaroSim
      else
        let maxPfx := min 4 (min m n)
        let pfx := ((List.range maxPfx).takeWhile
          (fun i => decide (a.getD i "" = b.getD i ""))).length
        1 - (jaroSim + (pfx : ℚ) * p * (1 - jaroSim))

/-- `euclideanDistance` on numeric rows (JS numbers modelled as exact
rationals, the final square root over `ℝ`). -/
noncomputable def euclideanDistance (a b : List ℚ) : ℝ :=
  Real.sqrt ((((List.range a.length).foldl
    (fun sum i => sum + (a.getD i 0 - b.getD i 0) * (a.getD i 0 - b.getD i 0))
    0 : ℚ) : ℝ))

/-- `manhattanDistance` on numeric rows. -/
def manhattanDistance (a b : List ℚ) : ℚ :=
  (List.range a.length).foldl (fun sum i => sum + |a.getD i 0 - b.getD i 0|) 0

/-- The signature of the `DISTANCE_FUNCS` record entries. -/
def DistFunc : Type := List String → List String → Option ℕ → Option ℕ → ℝ

/-- The `DISTANCE_FUNCS` record: name-indexed dispatch of the sequence
metrics.  Integer- and rational-valued metrics are cast into `ℝ`. -/
noncomputable def distanceFuncs : String → Option DistFunc
  | "hamming" => some (fun a b _ _ => hammingDistance a b false 1)
  | "lv" => some (fun a b la lb => (levenshteinDistance a b la lb : ℝ))
  | "osa" => some (fun a b la lb => (osaDistance a b la lb : ℝ))
  | "dl" => some (fun a b la lb => (dlDistance a b la lb : ℝ))
  | "lcs" => some (fun a b la lb => (lcsDistance a b la lb : ℝ))
  | "qgram" => some (fun a b la lb => (qgramDistance a b la lb : ℝ))
  | "cosine" => some (fun a b la lb => cosineDistance a b la lb)
  | "jaccard" => some (fun a b la lb => ((jaccardDistance a b la lb : ℚ) : ℝ))
  | "jw" => some (fun a b la lb => ((jaroWinklerDistance a b 0 la lb : ℚ) : ℝ))
  | _ => none

/-- All unordered index pairs `(i, j)` with `i < j < n`, in the order of
the two nested loops of the matrix builders. -/
def pairList (n : ℕ) : List (ℕ × ℕ) :=
  (List.range n).flatMap
    (fun i => (List.range' (i + 1) (n - (i + 1))).map (fun j => (i, j)))

/-- Write a value symmetrically into a functional matrix
(`dist.set(i, j, d); dist.set(j, i, d)`). -/
def setSym (M : ℕ → ℕ → ℝ) (i j : ℕ) (v : ℝ) : ℕ → ℕ → ℝ :=
  fun x y => if x = i ∧ y = j then v else if x = j ∧ y = i then v else M x y

/-- Fill the upper triangle and mirror it, starting from the zero matrix
(`Matrix.zeros(n, n)` plus the double loop of both matrix builders). -/
def buildDistMatrix (n : ℕ) (g : ℕ → ℕ → ℝ) : ℕ → ℕ → ℝ :=
  (pairList n).foldl (fun M p => setSym M p.1 p.2 (g p.1 p.2)) (fun _ _ => 0)

/-- `computeDistanceMatrix`: the `hamming` branch threads the
`weighted`/`lambda` options; every other name goes through the
`DISTANCE_FUNCS` lookup (throwing on an unknown name, before any pair is
evaluated) with precomputed effective lengths. -/
noncomputable def computeDistanceMatrix (sequences : List (List String))
    (dissimilarity : String) (weighted : Bool) (lambda : ℝ) :
    Except String (ℕ → ℕ → ℝ) :=
  let n := sequences.length
  if dissimilarity = "hamming" then
    .ok (buildDistMatrix n (fun i j =>
      hammingDistance (sequences.getD i []) (sequences.getD j []) weighted lambda))
  else
    match distanceFuncs dissimilarity with
    | none => .error ("Unknown dissimilarity: " ++ dissimilarity)
    | some f =>
      let effLens := sequences.map effectiveLength
      .ok (buildDistMatrix n (fun i j =>
        f (sequences.getD i []) (sequences.getD j [])
          (some (effLens.getD i 0)) (some (effLens.getD j 0))))

/-- `computeNumericDistanceMatrix`: `manhattan` by name, any other name
(including unknown ones) silently uses `euclideanDistance`. -/
noncomputable def computeNumericDistanceMatrix (data : List (List ℚ))
    (metric : String) : ℕ → ℕ → ℝ :=
  let func := if metric = "manhattan" then
      fun a b => ((manhattanDistance a b : ℚ) : ℝ)
    else euclideanDistance
  buildDistMatrix data.length (fun i j => func (data.getD i []) (data.getD j []))

section Solvers

variable {α : Type} [LinearOrderedField α]

/-- `[...new Set(labels)]`: deduplication preserving first-occurrence
(insertion) order. -/
def uniqueInOrder (l : List ℕ) : List ℕ :=
  l.foldl (fun acc x => if x ∈ acc then acc else acc ++ [x]) []

/-- The `a(i)` loop of the silhouette scorer: sum and count of distances
from `i` to the other members of its own cluster
(`if (j !== i && labels[j] === ci)`). -/
def silSameFold (d : ℕ → ℕ → α) (labels : List ℕ) (n i ci : ℕ) : α × ℕ :=
  (List.range n).foldl
    (fun sc j =>
      if j ≠ i ∧ labels.getD j 0 = ci then (sc.1 + d i j, sc.2 + 1) else sc)
    ((0 : α), (0 : ℕ))

/-- The inner loop of the `b(i)` computation: sum and count of distances
from `i` to the members of cluster `c` (`if (labels[j] === c)`). -/
def silOtherFold (d : ℕ → ℕ → α) (labels : List ℕ) (n i c : ℕ) : α × ℕ :=
  (List.range n).foldl
    (fun sc j =>
      if labels.getD j 0 = c then (sc.1 + d i j, sc.2 + 1) else sc)
    ((0 : α), (0 : ℕ))

/-- `b(i)` of the silhouette loop: minimum over the other clusters of the
mean distance from `i`, starting from `Infinity` (`⊤`), skipping empty
clusters. -/
def silB (d : ℕ → ℕ → α) (labels : List ℕ) (uniq : List ℕ) (n i ci : ℕ) :
    WithTop α :=
  uniq.foldl
    (fun bi c =>
      if c = ci then bi
      else
        let so := silOtherFold d labels n i c
        if 0 < so.2 then min bi (((so.1 / so.2 : α) : WithTop α)) else bi)
    (⊤ : WithTop α)

/-- Per-observation silhouette contribution, i.e. what one iteration of
the main loop adds to `totalScore` (`0` for a singleton, matching the
`continue`).  The `⊤` case of `b(i)` cannot occur when at least two
distinct cluster ids exist (the source would produce `NaN` there); see
`silB_ne_top_of_two_clusters`. -/
def silhouetteContrib (d : ℕ → ℕ → α) (labels : List ℕ) (uniq : List ℕ)
    (n i : ℕ) : α :=
  let ci := labels.getD i 0
  let sc := silSameFold d labels n i ci
  if sc.2 = 0 then 0
  else
    let ai := sc.1 / sc.2
    match silB d labels uniq n i ci with
    | ⊤ => 0
    | (b : α) =>
      let maxAB := max ai b
      if 0 < maxAB then (b - ai) / maxAB else 0

/-- `silhouetteScore`: `0` for fewer than two distinct ids, otherwise the
accumulated contributions divided by `n`. -/
def silhouetteScore (d : ℕ → ℕ → α) (labels : List ℕ) : α :=
  let n := labels.length
  let uniq := uniqueInOrder labels
  if uniq.length < 2 then 0
  else ((List.range n).foldl
    (fun total i => total + silhouetteContrib d labels uniq n i) 0) / n

/-- Row sums of the distance matrix (`totalDists` of the PAM build phase). -/
def totalDistFrom (n : ℕ) (d : ℕ → ℕ → α) (i : ℕ) : α :=
  (List.range n).foldl (fun s j => s + d i j) 0

/-- First medoid: ascending scan from `bestIdx = 0` replacing on `<=`
(last argmin wins). -/
def pamFirstMedoid (n : ℕ) (d : ℕ → ℕ → α) : ℕ :=
  ((List.range n).drop 1).foldl
    (fun best i =>
      if totalDistFrom n d i ≤ totalDistFrom n d best then i else best) 0

/-- Aggregate gain of candidate `c` given the running nearest-medoid
distances. -/
def pamGain (n : ℕ) (d : ℕ → ℕ → α) (nearest : ℕ → α) (c : ℕ) : α :=
  (List.range n).foldl (fun s i => s + max 0 (nearest i - d i c)) 0

/-- Selection of one subsequent medoid: scan all non-medoid candidates,
replacing on `>=` against a best gain started at `-Infinity` (`⊥`); the
result is `none` only when every index is already a medoid (the source
would push `-1` there, which cannot happen for `k ≤ n`). -/
def pamSelectNext (n : ℕ) (d : ℕ → ℕ → α) (medoids : List ℕ)
    (nearest : ℕ → α) : Option ℕ :=
  ((List.range n).foldl
    (fun st c =>
      if c ∈ medoids then st
      else if st.1 ≤ ((pamGain n d nearest c : α) : WithBot α) then
        (((pamGain n d nearest c : α) : WithBot α), some c)
      else st)
    ((⊥ : WithBot α), (none : Option ℕ))).2

/-- The build phase: first medoid, then `k - 1` greedy selections, each
updating the running nearest distances. -/
def pamBuild (n : ℕ) (d : ℕ → ℕ → α) (k : ℕ) : List ℕ × (ℕ → α) :=
  let first := pamFirstMedoid n d
  (List.range (k - 1)).foldl
    (fun st _ =>
      match pamSelectNext n d st.1 st.2 with
      | some c => (st.1 ++ [c], fun i => min (st.2 i) (d i c))
      | none => st)
    ([first], fun i => d i first)

/-- Distance from `i` to its nearest medoid.  The source folds `min`
from `Infinity` over the medoid list; with a nonempty list (always the
case, as `k ≥ 2`) this equals folding from the first element.  The empty
case returns `0` and is never reached. -/
def minDistToMedoids (d : ℕ → ℕ → α) (medoids : List ℕ) (i : ℕ) : α :=
  match medoids with
  | [] => 0
  | m :: rest => rest.foldl (fun acc x => min acc (d i x)) (d i m)

/-- Total assignment cost of a medoid set (`currentCost`/`trialCost`). -/
def assignCost (n : ℕ) (d : ℕ → ℕ → α) (medoids : List ℕ) : α :=
  (List.range n).foldl (fun s i => s + minDistToMedoids d medoids i) 0

/-- The `(bestChange, bestMIdx, bestSwap)` accumulator of one swap pass:
evaluate every (slot, candidate) pair, keeping the best strictly
improving one (`change < bestChange`, best change started at `0`). -/
def pamSwapBest (n : ℕ) (d : ℕ → ℕ → α) (k : ℕ) (medoids : List ℕ) :
    α × Option (ℕ × ℕ) :=
  let currentCost := assignCost n d medoids
  (List.range k).foldl
    (fun st mIdx =>
      (List.range n).foldl
        (fun st c =>
          if c ∈ medoids then st
          else
            let change := assignCost n d (medoids.set mIdx c) - currentCost
            if change < st.1 then (change, some (mIdx, c)) else st)
        st)
    ((0 : α), (none : Option (ℕ × ℕ)))

/-- One pass of the swap phase: apply the single best improving swap, or
report `none` when no strictly improving swap exists. -/
def pamSwapPass (n : ℕ) (d : ℕ → ℕ → α) (k : ℕ) (medoids : List ℕ) :
    Option (List ℕ) :=
  match (pamSwapBest n d k medoids).2 with
  | some mc => some (medoids.set mc.1 mc.2)
  | none => none

/-- The swap loop, capped at `fuel` passes (the source runs it with
`fuel = 100`) and stopping early when a pass finds no improving swap. -/
def pamSwapLoop (n : ℕ) (d : ℕ → ℕ → α) (k : ℕ) : ℕ → List ℕ → List ℕ
  | 0, medoids => medoids
  | fuel + 1, medoids =>
    match pamSwapPass n d k medoids with
    | some next => pamSwapLoop n d k fuel next
    | none => medoids

/-- Final assignment: nearest medoid in the sorted medoid list under a
strict `<` against a minimum started at `Infinity` (`⊤`), so ties go to
the lower slot; ids are the 1-indexed slot positions. -/
def pamAssign (n : ℕ) (d : ℕ → ℕ → α) (k : ℕ) (sorted : List ℕ) : List ℕ :=
  (List.range n).map (fun i =>
    ((List.range k).foldl
      (fun st m =>
        if ((d i (sorted.getD m 0) : α) : WithTop α) < st.1 then
          (((d i (sorted.getD m 0) : α) : WithTop α), m)
        else st)
      ((⊤ : WithTop α), 0)).2 + 1)

/-- `pam`: build phase, swap phase capped at 100 passes, then assignment
against the medoids sorted ascending (the numeric `Array.sort` of the
source, modelled as an insertion sort, which agrees with it on the
totally ordered keys). -/
def pam (n : ℕ) (d : ℕ → ℕ → α) (k : ℕ) : List ℕ :=
  let medoidsArr := pamSwapLoop n d k 100 (pamBuild n d k).1
  pamAssign n d k (medoidsArr.insertionSort (fun a b => a ≤ b))

/-- State of the hierarchical loop: the live cluster ids in insertion
order (a JS `Set`), the membership lists, the sizes and the working
distance matrix. -/
structure HState (α : Type) where
  active : List ℕ
  clusters : ℕ → List ℕ
  sizes : ℕ → ℕ
  dmat : ℕ → ℕ → α

/-- All ordered pairs of positions `a < b` of a list, in the order of the
two nested loops over `activeArr`. -/
def pairsOf : List ℕ → List (ℕ × ℕ)
  | [] => []
  | x :: xs => xs.map (fun y => (x, y)) ++ pairsOf xs

/-- Closest-pair selection: first pair strictly below the running best
(`<` against a best started at `Infinity`), so the earliest minimal pair
is retained. -/
def selectClosestPair (d : ℕ → ℕ → α) (activeList : List ℕ) : Option (ℕ × ℕ) :=
  ((pairsOf activeList).foldl
    (fun st p =>
      if ((d p.1 p.2 : α) : WithTop α) < st.1 then
        (((d p.1 p.2 : α) : WithTop α), some p)
      else st)
    ((⊤ : WithTop α), (none : Option (ℕ × ℕ)))).2

/-- The Lance-Williams update of the source `switch`, selected by the
method name with `average` as the default branch. -/
def lwNewDist (method : String) (ni nj nk : α) (dij dik djk : α) : α :=
  if method = "single" then min dik djk
  else if method = "complete" then max dik djk
  else if method = "mcquitty" then (dik + djk) / 2
  else if method = "median" then (dik + djk) / 2 - dij / 4
  else if method = "centroid" then
    (ni * dik + nj * djk) / (ni + nj) - ni * nj * dij / ((ni + nj) * (ni + nj))
  else if method = "ward.D" ∨ method = "ward.D2" then
    ((ni + nk) * dik + (nj + nk) * djk - nk * dij) / (ni + nj + nk)
  else (ni * dik + nj * djk) / (ni + nj)

/-- One merge: select the closest active pair, update the surviving row
and column by Lance-Williams (the source reads only cells it has not yet
written in the pass, so all updates are computed from the pre-merge
matrix), concatenate memberships, retire the absorbed id.  The `none`
branch is unreachable while the loop guard holds with `k ≥ 1`, since at
least two clusters are then active. -/
def mergeStep (method : String) (st : HState α) : HState α :=
  match selectClosestPair st.dmat st.active with
  | none => st
  | some bij =>
    let bi := bij.1
    let bj := bij.2
    let ni := st.sizes bi
    let nj := st.sizes bj
    let dij := st.dmat bi bj
    let newD := fun ck => lwNewDist method (ni : α) (nj : α) (st.sizes ck : α)
      dij (st.dmat bi ck) (st.dmat bj ck)
    let dmat2 := st.active.foldl
      (fun dd ck =>
        if ck = bi ∨ ck = bj then dd
        else fun x y =>
          if x = bi ∧ y = ck then newD ck
          else if x = ck ∧ y = bi then newD ck
          else dd x y)
      st.dmat
    { active := st.active.erase bj
      clusters := fun c => if c = bi then st.clusters bi ++ st.clusters bj
        else st.clusters c
      sizes := fun c => if c = bi then ni + nj else st.sizes c
      dmat := dmat2 }

/-- The merge loop (`while active.size > k`), with fuel, also counting
the merge steps performed. -/
def hierLoop (method : String) (k : ℕ) : ℕ → HState α → HState α × ℕ
  | 0, st => (st, 0)
  | fuel + 1, st =>
    if st.active.length ≤ k then (st, 0)
    else
      let res := hierLoop method k fuel (mergeStep method st)
      (res.1, res.2 + 1)

/-- Stamp one cluster id onto all members of one cluster
(`for (const point of clusters[ci]) assignments[point] = clusterIdx`). -/
def stampCluster (members : List ℕ) (g : ℕ → ℕ) (v : ℕ) : ℕ → ℕ :=
  members.foldl (fun g p => Function.update g p v) g

/-- Label assignment: walk the surviving cluster ids in order, stamping
1-indexed ids onto their members (`assignments[point] = clusterIdx`). -/
def assignFromClusters (n : ℕ) (active : List ℕ) (clusters : ℕ → List ℕ) :
    List ℕ :=
  let fin := active.foldl
    (fun st ci => (stampCluster (clusters ci) st.1 st.2, st.2 + 1))
    ((fun _ => 0 : ℕ → ℕ), 1)
  (List.range n).map fin.1

/-- The invariant of the hierarchical merge loop: duplicate-free active
ids whose membership lists partition the observations `0 .. n-1` into
nonempty groups. -/
def HInv (n : ℕ) (st : HState α) : Prop :=
  st.active.Nodup ∧
  (∀ c ∈ st.active, ∀ p ∈ st.clusters c, p < n) ∧
  (∀ p, p < n → ∃ c, c ∈ st.active ∧ p ∈ st.clusters c) ∧
  (∀ c1 ∈ st.active, ∀ c2 ∈ st.active, c1 ≠ c2 →
    ∀ p, p ∈ st.clusters c1 → p ∉ st.clusters c2) ∧
  (∀ c ∈ st.active, st.clusters c ≠ [])

/-- `hierarchical`: square the matrix up front for `ward.D2`, run the
merge loop with fuel `n` (never exhausted, since at most `n - k` merges
happen), then assign labels. -/
def hierarchical (n : ℕ) (dist : ℕ → ℕ → α) (k : ℕ) (method : String) :
    List ℕ :=
  let d0 := if method = "ward.D2" then fun i j => dist i j * dist i j else dist
  let init : HState α := ⟨List.range n, fun i => [i], fun _ => 1, d0⟩
  let res := hierLoop method k n init
  assignFromClusters n res.1.active res.1.clusters

/-- Number of merge steps the hierarchical solver performs. -/
def hierMergeCount (n : ℕ) (dist : ℕ → ℕ → α) (k : ℕ) (method : String) : ℕ :=
  let d0 := if method = "ward.D2" then fun i j => dist i j * dist i j else dist
  let init : HState α := ⟨List.range n, fun i => [i], fun _ => 1, d0⟩
  (hierLoop method k n init).2

end Solvers

/-- The `ClusterResult` record returned by the facade. -/
structure ClusterResult where
  data : List (List (Option String))
  k : ℕ
  assignments : List ℕ
  silhouette : ℝ
  sizes : List ℕ
  method : String
  distance : ℕ → ℕ → ℝ
  dissimilarity : String

/-- The optional-field options record of `clusterData`; `none` stands
for an omitted field, resolved by the `??` defaults of the source. -/
structure ClusterOptions where
  dissimilarity : Option String
  method : Option String
  naSyms : Option (List String)
  weighted : Option Bool
  lambda : Option ℝ

/-- The empty options record. -/
def noOptions : ClusterOptions := ⟨none, none, none, none, none⟩

/-- Method dispatch shared by both facade paths: `pam` by name, anything
else to the hierarchical solver. -/
noncomputable def solveAssignments (dist : ℕ → ℕ → ℝ) (n k : ℕ)
    (method : String) : List ℕ :=
  if method = "pam" then pam n dist k else hierarchical n dist k method

/-- `clusterStringData`: validate `k`, canonicalize tokens, build the
distance matrix (which may throw on an unknown dissimilarity), solve,
score, count sizes, and assemble the result. -/
noncomputable def clusterStringData (seqData : List (List (Option String)))
    (k : ℕ) (method : String) (options : ClusterOptions) :
    Except String ClusterResult :=
  let dissimilarity := options.dissimilarity.getD "hamming"
  let naSyms := options.naSyms.getD ["*", "%"]
  let weighted := options.weighted.getD false
  let lambda := options.lambda.getD 1
  if k < 2 then .error "k must be >= 2"
  else if seqData.length < k then
    .error ("k=" ++ toString k ++ " exceeds number of sequences (" ++
      toString seqData.length ++ ")")
  else
    match computeDistanceMatrix (toTokenLists seqData naSyms) dissimilarity
      weighted lambda with
    | .error e => .error e
    | .ok dist =>
      let assignments := solveAssignments dist seqData.length k method
      let sizes := (List.range k).map
        (fun c => assignments.countP (fun x => decide (x = c + 1)))
      .ok ⟨seqData, k, assignments, silhouetteScore dist assignments, sizes,
        method, dist, dissimilarity⟩

/-- The dynamic input shapes `clusterData` sniffs at runtime: a prepared
container (`TNAData`, carrying its `sequenceData`), raw token sequences,
or numeric rows (JS numbers modelled as rationals). -/
inductive ClusterInput where
  | tnaData (seqData : List (List (Option String)))
  | strRows (rows : List (List (Option String)))
  | numRows (rows : List (List ℚ))

/-- `isNumericData`: nonempty array whose first row is a nonempty array
with a numeric first entry.  Empty datasets and string rows are never
numeric. -/
def isNumericData : ClusterInput → Bool
  | .numRows (r :: _) => !r.isEmpty
  | _ => false

/-- String rendering of a numeric row set (`String(v)` of the source,
used both for the result payload and when non-numeric-looking rows fall
through to the string path, where JS would keep the raw numbers as
opaque tokens; rendering them injectively preserves all comparisons). -/
def numRowsAsSeqData (rows : List (List ℚ)) : List (List (Option String)) :=
  rows.map (fun row => row.map (fun v => some (toString v)))

/-- `clusterData`: the unified facade.  A prepared container delegates to
the string path on its embedded sequences; numeric data is validated and
clustered with the numeric metrics; everything else goes to the string
path.  A `numRows` value that fails `isNumericData` (empty, or an empty
first row) falls through to the string path exactly like the source. -/
noncomputable def clusterData (data : ClusterInput) (k : ℕ)
    (options : ClusterOptions) : Except String ClusterResult :=
  let method := options.method.getD "pam"
  match data with
  | .tnaData seqData => clusterStringData seqData k method options
  | .strRows rows => clusterStringData rows k method options
  | .numRows rows =>
    if isNumericData (.numRows rows) then
      let dissimilarity := options.dissimilarity.getD "euclidean"
      if k < 2 then .error "k must be >= 2"
      else if rows.length < k then
        .error ("k=" ++ toString k ++ " exceeds number of observations (" ++
          toString rows.length ++ ")")
      else
        let dist := computeNumericDistanceMatrix rows dissimilarity
        let assignments := solveAssignments dist rows.length k method
        let sizes := (List.range k).map
          (fun c => assignments.countP (fun x => decide (x = c + 1)))
        .ok ⟨numRowsAsSeqData rows, k, assignments,
          silhouetteScore dist assignments, sizes, method, dist, dissimilarity⟩
    else clusterStringData (numRowsAsSeqData rows) k method options

/-- `clusterSequences`: deprecated alias, a direct delegate. -/
noncomputable def clusterSequences (data : ClusterInput) (k : ℕ)
    (options : ClusterOptions) : Except String ClusterResult :=
  clusterData data k options

/-- Number of observations of an input, as seen by the validation of the
path the input is routed to. -/
def nObs : ClusterInput → ℕ
  | .tnaData seqData => seqData.length
  | .strRows rows => rows.length
  | .numRows rows => rows.length

/-- Spec-side formulation (section 4.5 of the spec): indices of the
members of observation `i`'s own cluster, other than `i` itself. -/
def silSpecSame (labels : List ℕ) (i : ℕ) : List ℕ :=
  (List.range labels.length).filter
    (fun j => decide (j ≠ i ∧ labels.getD j 0 = labels.getD i 0))

/-- Spec-side formulation: indices of the members of cluster `c`. -/
def silSpecCluster (labels : List ℕ) (c : ℕ) : List ℕ :=
  (List.range labels.length).filter (fun j => decide (labels.getD j 0 = c))

/-- Spec-side formulation of `a(i)`: mean distance from `i` to the other
members of its own cluster. -/
def silSpecA {α : Type} [LinearOrderedField α] (d : ℕ → ℕ → α)
    (labels : List ℕ) (i : ℕ) : α :=
  ((silSpecSame labels i).map (d i)).sum / (silSpecSame labels i).length

/-- Spec-side formulation of `b(i)`: the minimum, over the other
nonempty clusters, of the mean distance from `i` to that cluster
(`⊤` when no other nonempty cluster exists). -/
def silSpecB {α : Type} [LinearOrderedField α] (d : ℕ → ℕ → α)
    (labels : List ℕ) (i : ℕ) : WithTop α :=
  (((uniqueInOrder labels).filter
      (fun c => decide (c ≠ labels.getD i 0) &&
        !(silSpecCluster labels c).isEmpty)).map
    (fun c => ((((silSpecCluster labels c).map (d i)).sum /
      (silSpecCluster labels c).length : α) : WithTop α))).foldl min
    (⊤ : WithTop α)

/-- Spec-side formulation of the per-observation coefficient:
`(b(i) - a(i)) / max(a(i), b(i))`, `0` for a singleton and `0` when the
maximum is `0`. -/
def silSpecCoef {α : Type} [LinearOrderedField α] (d : ℕ → ℕ → α)
    (labels : List ℕ) (i : ℕ) : α :=
  if (silSpecSame labels i).length = 0 then 0
  else
    match silSpecB d labels i with
    | ⊤ => 0
    | (b : α) =>
      if max (silSpecA d labels i) b = 0 then 0
      else (b - silSpecA d labels i) / max (silSpecA d labels i) b

/-- Spec-side formulation of the silhouette score: the arithmetic mean
of the per-observation coefficients, `0` for fewer than two distinct
cluster ids. -/
def silhouetteSpecScore {α : Type} [LinearOrderedField α] (d : ℕ → ℕ → α)
    (labels : List ℕ) : α :=
  if (uniqueInOrder labels).length < 2 then 0
  else ((List.range labels.length).map (silSpecCoef d labels)).sum /
    labels.length

/-- The ascending replace-on-`<=` scan of the first-medoid selection,
abstracted over the scored values. -/
def argminLastAux {β : Type} [LinearOrder β] (g : ℕ → β) (n : ℕ) : ℕ :=
  ((List.range n).drop 1).foldl (fun best i => if g i ≤ g best then i else best) 0

/-- The replace-on-`>=` scan of the subsequent-medoid selection,
abstracted over the scored values and the skip set. -/
def argmaxLastFold {β : Type} [LinearOrder β] (g : ℕ → β) (skip : List ℕ)
    (n : ℕ) : WithBot β × Option ℕ :=
  (List.range n).foldl
    (fun st c =>
      if c ∈ skip then st
      else if st.1 ≤ ((g c : β) : WithBot β) then (((g c : β) : WithBot β), some c)
      else st)
    ((⊥ : WithBot β), (none : Option ℕ))

/-- The eight linkage names the Lance-Williams `switch` recognizes
(`average` being its default branch). -/
def recognizedLinkages : List String :=
  ["single", "complete", "mcquitty", "median", "centroid",
    "ward.D", "ward.D2", "average"]

/-! ## General helper lemmas -/

/-- A fold whose step ignores the element is the identity on the
accumulator. -/
lemma foldl_const_acc {β : Type _} {γ : Type _} (l : List γ) (b : β) :
    l.foldl (fun acc _ => acc) b = b := by
  induction l generalizing b with
  | nil => rfl
  | cons x xs ih => simpa using ih b

/-! ## Claim C2: self-distances -/

/-- The whole DL table is non-negative whenever the sentinel value is. -/
lemma dlTable_nonneg (a b : List String) (md : ℤ) (hmd : 0 ≤ md) :
    ∀ s i j, i + j ≤ s → 0 ≤ dlTable a b md i j := by
  intro s
  induction s using Nat.strong_induction_on with
  | _ s ih =>
    intro i j hij
    match i, j with
    | 0, j => simpa [dlTable] using hmd
    | i + 1, 0 => simpa [dlTable] using hmd
    | 1, j + 1 => simp [dlTable]
    | i + 2, 1 =>
      rw [show dlTable a b md (i + 2) 1 = (i : ℤ) + 1 from by simp [dlTable]]
      positivity
    | i + 2, j + 2 =>
      rw [dlTable]
      have hi1 := lastMatch_le a (b.getD j "") i
      have hj1 := lastMatch_le b (a.getD i "") j
      have hs : i + j + 4 ≤ s := by omega
      have h1 : 0 ≤ dlTable a b md (i + 1) (j + 1) :=
        ih (s - 1) (by omega) _ _ (by omega)
      have h2 : 0 ≤ dlTable a b md (i + 2) (j + 1) :=
        ih (s - 1) (by omega) _ _ (by omega)
      have h3 : 0 ≤ dlTable a b md (i + 1) (j + 2) :=
        ih (s - 1) (by omega) _ _ (by omega)
      have h4 : 0 ≤ dlTable a b md (lastMatch a (b.getD j "") i)
          (lastMatch b (a.getD i "") j) :=
        ih (s - 1) (by omega) _ _ (by omega)
      have hc : (0 : ℤ) ≤ if a.getD i "" = b.getD j "" then 0 else 1 := by
        split <;> omega
      simp only [le_min_iff]
      refine ⟨⟨by omega, by omega⟩, by omega, ?_⟩
      have hi1z : (0 : ℤ) ≤ ((i : ℤ) + 1) - (lastMatch a (b.getD j "") i) - 1 := by
        push_cast
        omega
      have hj1z : (0 : ℤ) ≤ ((j : ℤ) + 1) - (lastMatch b (a.getD i "") j) - 1 := by
        push_cast
        omega
      omega

/-- Diagonal entries of the self-comparison DL table vanish. -/
lemma dlTable_self_diag (a : List String) (md : ℤ) (hmd : 0 ≤ md) :
    ∀ t, dlTable a a md (t + 1) (t + 1) = 0 := by
  intro t
  induction t with
  | zero => simp [dlTable]
  | succ t ih =>
    show dlTable a a md (t + 2) (t + 2) = 0
    have hub : dlTable a a md (t + 2) (t + 2) ≤ 0 := by
      rw [dlTable]
      have hcost : (if a.getD t "" = a.getD t "" then (0 : ℤ) else 1) = 0 :=
        if_pos rfl
      calc _ ≤ dlTable a a md (t + 1) (t + 1) +
            (if a.getD t "" = a.getD t "" then (0 : ℤ) else 1) :=
              le_trans (min_le_left _ _) (min_le_left _ _)
        _ = 0 := by rw [ih, hcost]; ring
    have hlb := dlTable_nonneg a a md hmd ((t + 2) + (t + 2)) (t + 2) (t + 2) le_rfl
    omega

/-- DL self-distance is zero at every evaluation length. -/
lemma dlDistance_self (a : List String) (l? : Option ℕ) :
    dlDistance a a l? l? = 0 := by
  unfold dlDistance
  cases hm : l?.getD a.length with
  | zero => simp
  | succ t =>
    have h := dlTable_self_diag a ((t + 1 : ℕ) + (t + 1 : ℕ) : ℤ)
      (by positivity) (t + 1)
    simp only [hm]
    rw [if_neg (by omega), if_neg (by omega)]
    push_cast at h ⊢
    convert h using 2 <;> push_cast <;> ring

/-- Hamming self-distance is zero for every weighting. -/
lemma hammingDistance_self (a : List String) (w : Bool) (lam : ℝ) :
    hammingDistance a a w lam = 0 := by
  unfold hammingDistance
  have : ∀ (l : List ℕ) (acc : ℝ),
      l.foldl (fun dist i =>
        if (a ++ List.replicate (max a.length a.length - a.length) SENTINEL).getD i ""
            ≠ (a ++ List.replicate (max a.length a.length - a.length) SENTINEL).getD i "" then
          dist + (if w then Real.exp (-lam * i) else 1)
        else dist) acc = acc := by
    intro l acc
    induction l generalizing acc with
    | nil => rfl
    | cons x xs ih => simpa using ih acc
  simpa using this _ 0

/-- Claim C2 as stated is false: with the inverted cost convention of
the engine, the Levenshtein distance between the one-token sequence
`["A"]` and itself, evaluated at its effective length, is `1`, not `0`
(the OSA distance behaves identically). -/
theorem C2_counterexample_lv_self :
    levenshteinDistance ["A"] ["A"] (some (effectiveLength ["A"]))
      (some (effectiveLength ["A"])) ≠ 0 := by
  decide

/-- Claim C2, amended.  Hamming distance between a sequence and itself
is `0` for every weighting, and the Damerau-Levenshtein distance between
a sequence and itself is `0` at every evaluation length; the Levenshtein
and OSA self-distances are `0` at evaluation length `0` (but not in
general, by `C2_counterexample_lv_self`). -/
theorem C2_amended_self_distances :
    (∀ (a : List String) (w : Bool) (lam : ℝ), hammingDistance a a w lam = 0) ∧
    (∀ (a : List String) (l? : Option ℕ), dlDistance a a l? l? = 0) ∧
    (∀ a b : List String, levenshteinDistance a b (some 0) (some 0) = 0) ∧
    (∀ a b : List String, osaDistance a b (some 0) (some 0) = 0) :=
  ⟨hammingDistance_self, dlDistance_self, fun _ _ => rfl, fun _ _ => rfl⟩

/-! ## Claims C8, C10, C3: facade validation and metric dispatch -/

/-- The unknown-dissimilarity message never collides with either
`InvalidK` message. -/
lemma unknownMsg_ne_kMsg (s t : String) :
    ("Unknown dissimilarity: " ++ s ≠ "k must be >= 2") ∧
    ("Unknown dissimilarity: " ++ s ≠ "k=" ++ t) := by
  constructor
  · intro h
    have hd := congrArg String.data h
    rw [String.data_append] at hd
    have e1 : "Unknown dissimilarity: ".data =
        'U' :: "nknown dissimilarity: ".data := rfl
    have e2 : "k must be >= 2".data = 'k' :: " must be >= 2".data := rfl
    rw [e1, e2, List.cons_append] at hd
    exact absurd (List.head_eq_of_cons_eq hd) (by decide)
  · intro h
    have hd := congrArg String.data h
    rw [String.data_append, String.data_append] at hd
    have e1 : "Unknown dissimilarity: ".data =
        'U' :: "nknown dissimilarity: ".data := rfl
    have e2 : "k=".data = 'k' :: "=".data := rfl
    rw [e1, e2, List.cons_append, List.cons_append] at hd
    exact absurd (List.head_eq_of_cons_eq hd) (by decide)

/-- The only error `computeDistanceMatrix` can produce is the
unknown-dissimilarity one, raised at dispatch. -/
lemma computeDistanceMatrix_error {seqs : List (List String)} {diss : String}
    {w : Bool} {lam : ℝ} {e : String}
    (h : computeDistanceMatrix seqs diss w lam = .error e) :
    e = "Unknown dissimilarity: " ++ diss := by
  unfold computeDistanceMatrix at h
  by_cases hh : diss = "hamming"
  · rw [if_pos hh] at h
    exact absurd h (by simp)
  · rw [if_neg hh] at h
    cases hdf : distanceFuncs diss with
    | none => rw [hdf] at h; simpa using h.symm
    | some f => rw [hdf] at h; exact absurd h (by simp)

/-- The k-guard of the string path, low side. -/
lemma clusterStringData_klow {s : List (List (Option String))} {k : ℕ}
    {method : String} {opts : ClusterOptions} (hk : k < 2) :
    clusterStringData s k method opts = .error "k must be >= 2" := by
  simp only [clusterStringData]
  rw [if_pos hk]

/-- The k-guard of the string path, high side. -/
lemma clusterStringData_khigh {s : List (List (Option String))} {k : ℕ}
    {method : String} {opts : ClusterOptions} (h2 : ¬ k < 2) (hn : s.length < k) :
    clusterStringData s k method opts =
      .error ("k=" ++ toString k ++ " exceeds number of sequences (" ++
        toString s.length ++ ")") := by
  simp only [clusterStringData]
  rw [if_neg h2, if_pos hn]

/-- With a valid `k`, the string path only ever raises the
unknown-dissimilarity error. -/
lemma clusterStringData_error {s : List (List (Option String))} {k : ℕ}
    {method : String} {opts : ClusterOptions} {e : String} (h2 : ¬ k < 2)
    (hn : ¬ s.length < k)
    (h : clusterStringData s k method opts = .error e) :
    e = "Unknown dissimilarity: " ++ (opts.dissimilarity.getD "hamming") := by
  simp only [clusterStringData] at h
  rw [if_neg h2, if_neg hn] at h
  cases hcdm : computeDistanceMatrix (toTokenLists s (opts.naSyms.getD ["*", "%"]))
      (opts.dissimilarity.getD "hamming") (opts.weighted.getD false)
      (opts.lambda.getD 1) with
  | error e2 =>
    rw [hcdm] at h
    simp only [Except.error.injEq] at h
    rw [← h]
    exact computeDistanceMatrix_error hcdm
  | ok dist =>
    rw [hcdm] at h
    exact absurd h (by simp)

/-- `numRowsAsSeqData` preserves the observation count. -/
lemma length_numRowsAsSeqData (rows : List (List ℚ)) :
    (numRowsAsSeqData rows).length = rows.length :=
  List.length_map _ _

/-- Claim C8.  Both facade entry points reject `k < 2` and `k > n`
with the corresponding `InvalidK` message regardless of options and
data content (so before any distance evaluation can matter), and with
`2 ≤ k ≤ n` the only error either can raise is the
unknown-dissimilarity one, which is distinct from both `InvalidK`
messages. -/
theorem C8_k_validation (input : ClusterInput) (k : ℕ) (opts : ClusterOptions) :
    (k < 2 → clusterData input k opts = .error "k must be >= 2") ∧
    (2 ≤ k → nObs input < k →
      clusterData input k opts = .error ("k=" ++ toString k ++
        " exceeds number of sequences (" ++ toString (nObs input) ++ ")") ∨
      clusterData input k opts = .error ("k=" ++ toString k ++
        " exceeds number of observations (" ++ toString (nObs input) ++ ")")) ∧
    (2 ≤ k → k ≤ nObs input → ∀ e, clusterData input k opts = .error e →
      ∃ dname, e = "Unknown dissimilarity: " ++ dname) ∧
    (∀ s t : String, ("Unknown dissimilarity: " ++ s ≠ "k must be >= 2") ∧
      ("Unknown dissimilarity: " ++ s ≠ "k=" ++ t)) ∧
    clusterSequences input k opts = clusterData input k opts := by
  refine ⟨?_, ?_, ?_, unknownMsg_ne_kMsg, rfl⟩
  · intro hk
    cases input with
    | tnaData s => exact clusterStringData_klow hk
    | strRows s => exact clusterStringData_klow hk
    | numRows rows =>
      simp only [clusterData]
      cases hnum : isNumericData (.numRows rows) with
      | false =>
        rw [if_neg (by simp [hnum])]
        exact clusterStringData_klow hk
      | true =>
        rw [if_pos (by simp [hnum]), if_pos hk]
  · intro h2 hn
    have h2' : ¬ k < 2 := by omega
    cases input with
    | tnaData s => exact Or.inl (clusterStringData_khigh h2' hn)
    | strRows s => exact Or.inl (clusterStringData_khigh h2' hn)
    | numRows rows =>
      simp only [clusterData]
      cases hnum : isNumericData (.numRows rows) with
      | false =>
        rw [if_neg (by simp [hnum])]
        refine Or.inl ?_
        have hl := @clusterStringData_khigh (numRowsAsSeqData rows) k
          (opts.method.getD "pam") opts h2'
          (by rw [length_numRowsAsSeqData]; exact hn)
        rw [hl, length_numRowsAsSeqData]
        rfl
      | true =>
        rw [if_pos (by simp [hnum]), if_neg h2',
          if_pos (show rows.length < k from hn)]
        exact Or.inr rfl
  · intro h2 hn e herr
    have h2' : ¬ k < 2 := by omega
    have hn' : ¬ nObs input < k := by omega
    cases input with
    | tnaData s => exact ⟨_, clusterStringData_error h2' hn' herr⟩
    | strRows s => exact ⟨_, clusterStringData_error h2' hn' herr⟩
    | numRows rows =>
      simp only [clusterData] at herr
      cases hnum : isNumericData (.numRows rows) with
      | false =>
        rw [if_neg (by simp [hnum])] at herr
        refine ⟨_, clusterStringData_error h2' ?_ herr⟩
        rw [length_numRowsAsSeqData]
        exact hn'
      | true =>
        rw [if_pos (by simp [hnum]), if_neg h2',
          if_neg (show ¬ rows.length < k from hn')] at herr
        exact absurd herr (by simp)

/-- Witness for C8 at a concrete input: two one-token sequences,
`k = 2`, default options. -/
theorem C8_k_validation_witness :
    (2 ≤ 2 → 2 ≤ nObs (.strRows [[some "A"], [some "B"]]) →
      ∀ e, clusterData (.strRows [[some "A"], [some "B"]]) 2 noOptions = .error e →
        ∃ dname, e = "Unknown dissimilarity: " ++ dname) ∧
    (3 < 2 → clusterData (.strRows [[some "A"], [some "B"]]) 3 noOptions ≠
      .error "unused") := by
  constructor
  · exact (C8_k_validation (.strRows [[some "A"], [some "B"]]) 2 noOptions).2.2.1
  · intro h
    exact absurd h (by decide)

/-- Claim C10.  An empty dataset, on every input shape, is rejected for
any `k ≥ 2` through the `k`-bound check of the string path (empty arrays
are never classified as numeric data, so the numeric path and its
distance computation are never entered). -/
theorem C10_empty_input (k : ℕ) (opts : ClusterOptions) (hk : 2 ≤ k) :
    clusterData (.strRows []) k opts =
      .error ("k=" ++ toString k ++ " exceeds number of sequences (" ++ toString (0 : ℕ) ++ ")") ∧
    clusterData (.numRows []) k opts =
      .error ("k=" ++ toString k ++ " exceeds number of sequences (" ++ toString (0 : ℕ) ++ ")") ∧
    clusterData (.tnaData []) k opts =
      .error ("k=" ++ toString k ++ " exceeds number of sequences (" ++ toString (0 : ℕ) ++ ")") ∧
    isNumericData (.numRows []) = false ∧
    isNumericData (.strRows []) = false := by
  have h2' : ¬ k < 2 := by omega
  refine ⟨?_, ?_, ?_, rfl, rfl⟩
  · exact @clusterStringData_khigh [] k (opts.method.getD "pam") opts h2'
      (by simp only [List.length_nil]; omega)
  · simp only [clusterData]
    rw [if_neg (by simp [isNumericData])]
    exact @clusterStringData_khigh [] k (opts.method.getD "pam") opts h2'
      (by simp only [List.length_nil]; omega)
  · exact @clusterStringData_khigh [] k (opts.method.getD "pam") opts h2'
      (by simp only [List.length_nil]; omega)

/-- Claim C3 as stated is false on the numeric path: with an unknown
dissimilarity name, `clusterData` on numeric rows does not reject but
silently computes Euclidean distances and returns a Cluster Result
carrying the unknown name. -/
theorem C3_counterexample_numeric_unknown_metric :
    (clusterData (.numRows [[0], [1]]) 2
        ⟨some "banana", none, none, none, none⟩).toOption.map
      (fun r => r.dissimilarity) = some "banana" := rfl

/-- Claim C3, amended.  On the sequence-metric path an unknown
dissimilarity is rejected at dispatch (before any pair is evaluated) and
no Cluster Result escapes; on the numeric path, however, every metric
name other than `manhattan` — unknown names included — is treated as
`euclidean`, and with a valid `k` a Cluster Result carrying the
requested name is produced. -/
theorem C3_amended_unknown_dissimilarity :
    (∀ (seqs : List (List String)) (diss : String) (w : Bool) (lam : ℝ),
      distanceFuncs diss = none →
      computeDistanceMatrix seqs diss w lam =
        .error ("Unknown dissimilarity: " ++ diss)) ∧
    (∀ (s : List (List (Option String))) (k : ℕ) (method : String)
      (opts : ClusterOptions),
      distanceFuncs (opts.dissimilarity.getD "hamming") = none →
      ∀ r, clusterStringData s k method opts ≠ .ok r) ∧
    (∀ (rows : List (List ℚ)) (metric : String), metric ≠ "manhattan" →
      computeNumericDistanceMatrix rows metric =
        computeNumericDistanceMatrix rows "euclidean") ∧
    (∀ (rows : List (List ℚ)) (k : ℕ) (opts : ClusterOptions),
      isNumericData (.numRows rows) = true → ¬ k < 2 → ¬ rows.length < k →
      ∃ r, clusterData (.numRows rows) k opts = .ok r ∧
        r.dissimilarity = opts.dissimilarity.getD "euclidean") := by
  have part1 : ∀ (seqs : List (List String)) (diss : String) (w : Bool) (lam : ℝ),
      distanceFuncs diss = none →
      computeDistanceMatrix seqs diss w lam =
        .error ("Unknown dissimilarity: " ++ diss) := by
    intro seqs diss w lam h
    have hne : diss ≠ "hamming" := by
      intro he
      rw [he] at h
      exact absurd h (by simp [distanceFuncs])
    unfold computeDistanceMatrix
    rw [if_neg hne, h]
  refine ⟨part1, ?_, ?_, ?_⟩
  · intro s k method opts h r hok
    simp only [clusterStringData] at hok
    by_cases h2 : k < 2
    · rw [if_pos h2] at hok
      exact absurd hok (by simp)
    · rw [if_neg h2] at hok
      by_cases hn : s.length < k
      · rw [if_pos hn] at hok
        exact absurd hok (by simp)
      · rw [if_neg hn, part1 _ _ _ _ h] at hok
        exact absurd hok (by simp)
  · intro rows metric h
    unfold computeNumericDistanceMatrix
    rw [if_neg h, if_neg (by decide)]
  · intro rows k opts hnum h2 hn
    simp only [clusterData]
    rw [if_pos (by simp [hnum]), if_neg h2, if_neg hn]
    exact ⟨_, rfl, rfl⟩

/-- Witness for the amended C3 at concrete inputs. -/
theorem C3_amended_witness :
    computeDistanceMatrix [["A"], ["B"]] "banana" false 1 =
      .error ("Unknown dissimilarity: " ++ "banana") ∧
    (∃ r, clusterData (.numRows [[0], [1]]) 2 noOptions = .ok r ∧
      r.dissimilarity = noOptions.dissimilarity.getD "euclidean") :=
  ⟨C3_amended_unknown_dissimilarity.1 [["A"], ["B"]] "banana" false 1 rfl,
    C3_amended_unknown_dissimilarity.2.2.2 [[0], [1]] 2 noOptions rfl
      (by decide) (by decide)⟩

/-! ## Claim C9: method dispatch and the default linkage -/

/-- An unrecognized method name selects the same Lance-Williams update
as `average`. -/
lemma lwNewDist_unknown {α : Type} [LinearOrderedField α] (method : String)
    (h : method ∉ recognizedLinkages) :
    (lwNewDist method : α → α → α → α → α → α → α) = lwNewDist "average" := by
  have hs : method ≠ "single" ∧ method ≠ "complete" ∧ method ≠ "mcquitty" ∧
      method ≠ "median" ∧ method ≠ "centroid" ∧ method ≠ "ward.D" ∧
      method ≠ "ward.D2" := by
    simp only [recognizedLinkages, List.mem_cons, List.mem_singleton] at h
    tauto
  obtain ⟨h1, h2, h3, h4, h5, h6, h7⟩ := hs
  funext ni nj nk dij dik djk
  simp only [lwNewDist, if_neg h1, if_neg h2, if_neg h3, if_neg h4, if_neg h5,
    if_neg (show ¬ (method = "ward.D" ∨ method = "ward.D2") from
      fun hc => hc.elim h6 h7)]
  simp

/-- Merge steps only see the method through its Lance-Williams update. -/
lemma mergeStep_congr {α : Type} [LinearOrderedField α] {m1 m2 : String}
    (h : (lwNewDist m1 : α → α → α → α → α → α → α) = lwNewDist m2)
    (st : HState α) : mergeStep m1 st = mergeStep m2 st := by
  unfold mergeStep
  rw [h]

/-- The merge loop only sees the method through its Lance-Williams
update. -/
lemma hierLoop_congr {α : Type} [LinearOrderedField α] {m1 m2 : String}
    (h : (lwNewDist m1 : α → α → α → α → α → α → α) = lwNewDist m2) (k : ℕ) :
    ∀ (fuel : ℕ) (st : HState α),
      hierLoop m1 k fuel st = hierLoop m2 k fuel st := by
  intro fuel
  induction fuel with
  | zero => intro st; rfl
  | succ f ih =>
    intro st
    simp only [hierLoop]
    rw [mergeStep_congr h st, ih]

/-- Claim C9.  Every method name other than `pam` is dispatched to the
hierarchical solver, and a method name outside the eight recognized
linkage rules produces exactly the partition of `average`. -/
theorem C9_method_dispatch :
    (∀ (dist : ℕ → ℕ → ℝ) (n k : ℕ) (method : String), method ≠ "pam" →
      solveAssignments dist n k method = hierarchical n dist k method) ∧
    (∀ {α : Type} [LinearOrderedField α] (n : ℕ) (d : ℕ → ℕ → α) (k : ℕ)
      (method : String), method ∉ recognizedLinkages →
      hierarchical n d k method = hierarchical n d k "average") := by
  constructor
  · intro dist n k method h
    unfold solveAssignments
    rw [if_neg h]
  · intro α inst n d k method h
    have hward : method ≠ "ward.D2" := by
      intro he
      rw [he] at h
      exact h (by simp [recognizedLinkages])
    unfold hierarchical
    simp only [if_neg hward, if_neg (show "average" ≠ "ward.D2" by decide)]
    rw [hierLoop_congr (lwNewDist_unknown method h) k]

/-- Witness for C9: the unknown method name `banana` on a concrete
2-observation instance. -/
theorem C9_method_dispatch_witness :
    solveAssignments (fun _ _ => (0 : ℝ)) 2 2 "banana" =
      hierarchical 2 (fun _ _ => (0 : ℝ)) 2 "banana" ∧
    hierarchical 2 (fun _ _ => (0 : ℚ)) 2 "banana" =
      hierarchical 2 (fun _ _ => (0 : ℚ)) 2 "average" :=
  ⟨C9_method_dispatch.1 (fun _ _ => 0) 2 2 "banana" (by decide),
    C9_method_dispatch.2 2 (fun _ _ => 0) 2 "banana" (by decide)⟩

/-! ## Claim C7: swap-phase and merge-loop termination behaviour -/

/-- Fold preservation of a predicate, with membership of the folded
element available. -/
lemma foldl_preserve_mem {σ : Type _} {β : Type _} (P : σ → Prop) :
    ∀ (l : List β) (f : σ → β → σ),
      (∀ s x, x ∈ l → P s → P (f s x)) → ∀ s, P s → P (l.foldl f s) := by
  intro l
  induction l with
  | nil => intro f _ s h; exact h
  | cons x xs ih =>
    intro f hf s h
    exact ih f (fun s2 y hy hP => hf s2 y (List.mem_cons_of_mem _ hy) hP)
      (f s x) (hf s x (List.mem_cons_self _ _) h)

/-- Whatever `pamSwapBest` selects is a strictly improving in-range
swap. -/
lemma pamSwapBest_spec {α : Type} [LinearOrderedField α] (n : ℕ) (d : ℕ → ℕ → α) (k : ℕ) (medoids : List ℕ) :
    ∀ mc, (pamSwapBest n d k medoids).2 = some mc →
      mc.1 < k ∧ mc.2 < n ∧ mc.2 ∉ medoids ∧
      assignCost n d (medoids.set mc.1 mc.2) < assignCost n d medoids := by
  have key : (fun (st : α × Option (ℕ × ℕ)) =>
      (st.2 = none → st.1 = 0) ∧
      (∀ mc, st.2 = some mc → mc.1 < k ∧ mc.2 < n ∧ mc.2 ∉ medoids ∧
        st.1 = assignCost n d (medoids.set mc.1 mc.2) - assignCost n d medoids ∧
        st.1 < 0))
      ((List.range k).foldl
        (fun st mIdx =>
          (List.range n).foldl
            (fun st c =>
              if c ∈ medoids then st
              else
                let change := assignCost n d (medoids.set mIdx c) -
                  assignCost n d medoids
                if change < st.1 then (change, some (mIdx, c)) else st)
            st)
        ((0 : α), (none : Option (ℕ × ℕ)))) := by
    refine foldl_preserve_mem
      (fun (st : α × Option (ℕ × ℕ)) =>
        (st.2 = none → st.1 = 0) ∧
        (∀ mc, st.2 = some mc → mc.1 < k ∧ mc.2 < n ∧ mc.2 ∉ medoids ∧
          st.1 = assignCost n d (medoids.set mc.1 mc.2) -
            assignCost n d medoids ∧ st.1 < 0))
      (List.range k) _ ?_ _ ?_
    · intro st mIdx hmIdx hP
      refine foldl_preserve_mem
        (fun (st : α × Option (ℕ × ℕ)) =>
          (st.2 = none → st.1 = 0) ∧
          (∀ mc, st.2 = some mc → mc.1 < k ∧ mc.2 < n ∧ mc.2 ∉ medoids ∧
            st.1 = assignCost n d (medoids.set mc.1 mc.2) -
              assignCost n d medoids ∧ st.1 < 0))
        (List.range n) _ ?_ st hP
      intro st2 c hc hP2
      by_cases hcm : c ∈ medoids
      · simpa [hcm] using hP2
      · simp only [if_neg hcm]
        by_cases himp : assignCost n d (medoids.set mIdx c) -
            assignCost n d medoids < st2.1
        · rw [if_pos himp]
          have hle : st2.1 ≤ 0 := by
            rcases h2 : st2.2 with _ | mc2
            · exact le_of_eq (hP2.1 h2)
            · exact le_of_lt (hP2.2 mc2 h2).2.2.2.2
          refine ⟨by simp, ?_⟩
          rintro mc hmc
          injection hmc with hmc
          subst hmc
          exact ⟨List.mem_range.mp hmIdx, List.mem_range.mp hc, hcm, rfl,
            lt_of_lt_of_le himp hle⟩
        · rw [if_neg himp]
          exact hP2
    · exact ⟨fun _ => rfl, by simp⟩
  intro mc hmc
  obtain ⟨h1, h2, h3, h4, h5⟩ := key.2 mc hmc
  refine ⟨h1, h2, h3, ?_⟩
  have := h4 ▸ h5
  linarith

/-- An applied swap pass changes exactly one slot and strictly lowers
the total assignment cost. -/
lemma pamSwapPass_improves {α : Type} [LinearOrderedField α] (n : ℕ) (d : ℕ → ℕ → α) (k : ℕ)
    (medoids m2 : List ℕ) (h : pamSwapPass n d k medoids = some m2) :
    (∃ mi c, mi < k ∧ c < n ∧ c ∉ medoids ∧ m2 = medoids.set mi c) ∧
    assignCost n d m2 < assignCost n d medoids := by
  unfold pamSwapPass at h
  cases hb : (pamSwapBest n d k medoids).2 with
  | none => rw [hb] at h; exact absurd h (by simp)
  | some mc =>
    rw [hb] at h
    injection h with h
    subst h
    obtain ⟨h1, h2, h3, h4⟩ := pamSwapBest_spec n d k medoids mc hb
    exact ⟨⟨mc.1, mc.2, h1, h2, h3, rfl⟩, h4⟩

/-- When a pass finds no improving swap, the loop stops immediately. -/
lemma pamSwapLoop_stops {α : Type} [LinearOrderedField α] (n : ℕ) (d : ℕ → ℕ → α) (k : ℕ) (medoids : List ℕ)
    (fuel : ℕ) (h : pamSwapPass n d k medoids = none) :
    pamSwapLoop n d k fuel medoids = medoids := by
  cases fuel with
  | zero => rfl
  | succ f => simp only [pamSwapLoop]; rw [h]

/-- Members of `pairsOf l` have both components in `l`. -/
lemma pairsOf_mem : ∀ (l : List ℕ) (p : ℕ × ℕ), p ∈ pairsOf l →
    p.1 ∈ l ∧ p.2 ∈ l := by
  intro l
  induction l with
  | nil => simp [pairsOf]
  | cons x xs ih =>
    intro p hp
    simp only [pairsOf, List.mem_append, List.mem_map] at hp
    rcases hp with ⟨y, hy, rfl⟩ | hp
    · exact ⟨List.mem_cons_self _ _, List.mem_cons_of_mem _ hy⟩
    · obtain ⟨h1, h2⟩ := ih p hp
      exact ⟨List.mem_cons_of_mem _ h1, List.mem_cons_of_mem _ h2⟩

/-- On a duplicate-free list, `pairsOf` yields pairs of distinct ids. -/
lemma pairsOf_ne : ∀ (l : List ℕ), l.Nodup → ∀ p ∈ pairsOf l, p.1 ≠ p.2 := by
  intro l
  induction l with
  | nil => simp [pairsOf]
  | cons x xs ih =>
    intro hnd p hp
    simp only [pairsOf, List.mem_append, List.mem_map] at hp
    rcases hp with ⟨y, hy, rfl⟩ | hp
    · intro he
      have he2 : x = y := he
      exact (List.nodup_cons.mp hnd).1 (by rwa [he2])
    · exact ih (List.nodup_cons.mp hnd).2 p hp

/-- At least two entries give at least one pair. -/
lemma pairsOf_ne_nil : ∀ (l : List ℕ), 2 ≤ l.length → pairsOf l ≠ [] := by
  intro l hl
  match l, hl with
  | x :: y :: rest, _ => simp [pairsOf]

/-- With at least two active clusters the closest-pair selection
succeeds, and it returns an actual active pair. -/
lemma selectClosestPair_spec {α : Type} [LinearOrderedField α] (d : ℕ → ℕ → α) (l : List ℕ)
    (h2 : 2 ≤ l.length) :
    ∃ p, selectClosestPair d l = some p ∧ p ∈ pairsOf l := by
  have hmem : ∀ p, (((pairsOf l).foldl
      (fun st p =>
        if ((d p.1 p.2 : α) : WithTop α) < st.1 then
          (((d p.1 p.2 : α) : WithTop α), some p)
        else st)
      ((⊤ : WithTop α), (none : Option (ℕ × ℕ))))).2 = some p →
      p ∈ pairsOf l := by
    have key := foldl_preserve_mem
      (fun (st : WithTop α × Option (ℕ × ℕ)) =>
        ∀ p, st.2 = some p → p ∈ pairsOf l)
      (pairsOf l)
      (fun st p =>
        if ((d p.1 p.2 : α) : WithTop α) < st.1 then
          (((d p.1 p.2 : α) : WithTop α), some p)
        else st)
      (by
        intro st p hp hP q hq
        dsimp only at hq
        by_cases hlt : ((d p.1 p.2 : α) : WithTop α) < st.1
        · rw [if_pos hlt] at hq
          injection hq with hq
          exact hq ▸ hp
        · rw [if_neg hlt] at hq
          exact hP q hq)
      (⊤, none) (by simp)
    exact key
  have hsome : (((pairsOf l).foldl
      (fun st p =>
        if ((d p.1 p.2 : α) : WithTop α) < st.1 then
          (((d p.1 p.2 : α) : WithTop α), some p)
        else st)
      ((⊤ : WithTop α), (none : Option (ℕ × ℕ))))).2 ≠ none := by
    cases hl : pairsOf l with
    | nil => exact absurd hl (pairsOf_ne_nil l h2)
    | cons p0 rest =>
      simp only [List.foldl_cons]
      dsimp only
      rw [if_pos (WithTop.coe_lt_top _)]
      exact foldl_preserve_mem
        (fun (st : WithTop α × Option (ℕ × ℕ)) => st.2 ≠ none) rest
        (fun st p =>
          if ((d p.1 p.2 : α) : WithTop α) < st.1 then
            (((d p.1 p.2 : α) : WithTop α), some p)
          else st)
        (by
          intro st p _ hP
          dsimp only
          by_cases hlt : ((d p.1 p.2 : α) : WithTop α) < st.1
          · rw [if_pos hlt]; simp
          · rw [if_neg hlt]; exact hP)
        (((d p0.1 p0.2 : α) : WithTop α), some p0) (by simp)
  unfold selectClosestPair
  cases hres : (((pairsOf l).foldl
      (fun st p =>
        if ((d p.1 p.2 : α) : WithTop α) < st.1 then
          (((d p.1 p.2 : α) : WithTop α), some p)
        else st)
      ((⊤ : WithTop α), (none : Option (ℕ × ℕ))))).2 with
  | none => exact absurd hres hsome
  | some p => exact ⟨p, rfl, hmem p hres⟩

/-- A merge step on at least two duplicate-free active clusters removes
exactly one of them. -/
lemma mergeStep_shrinks {α : Type} [LinearOrderedField α] (method : String) (st : HState α)
    (h2 : 2 ≤ st.active.length) (hnd : st.active.Nodup) :
    (mergeStep method st).active.length + 1 = st.active.length ∧
    (mergeStep method st).active.Nodup := by
  obtain ⟨p, hsel, hmem⟩ := selectClosestPair_spec st.dmat st.active h2
  obtain ⟨hp1, hp2⟩ := pairsOf_mem st.active p hmem
  unfold mergeStep
  rw [hsel]
  constructor
  · show (st.active.erase p.2).length + 1 = st.active.length
    have := List.length_erase_of_mem hp2
    omega
  · exact hnd.erase _

/-- The merge loop performs exactly `length - k` merges and ends with
exactly `k` active clusters (given enough fuel and `k ≥ 1`). -/
lemma hierLoop_count {α : Type} [LinearOrderedField α] (method : String) (k : ℕ) (hk : 1 ≤ k) :
    ∀ (fuel : ℕ) (st : HState α), st.active.Nodup →
      st.active.length ≤ fuel + k →
      (hierLoop method k fuel st).2 = st.active.length - k ∧
      (k ≤ st.active.length →
        (hierLoop method k fuel st).1.active.length = k) ∧
      (hierLoop method k fuel st).1.active.Nodup := by
  intro fuel
  induction fuel with
  | zero =>
    intro st hnd hle
    exact ⟨show (0 : ℕ) = st.active.length - k by omega,
      fun _ => show st.active.length = k by omega, hnd⟩
  | succ f ih =>
    intro st hnd hle
    simp only [hierLoop]
    by_cases hstop : st.active.length ≤ k
    · rw [if_pos hstop]
      exact ⟨show (0 : ℕ) = st.active.length - k by omega,
        fun _ => show st.active.length = k by omega, hnd⟩
    · rw [if_neg hstop]
      have h2 : 2 ≤ st.active.length := by omega
      obtain ⟨hlen, hnd2⟩ := mergeStep_shrinks method st h2 hnd
      obtain ⟨c1, c2, c3⟩ := ih (mergeStep method st) hnd2 (by omega)
      refine ⟨?_, fun _ => ?_, c3⟩
      · show (hierLoop method k f (mergeStep method st)).2 + 1 =
          st.active.length - k
        rw [c1]
        omega
      · show (hierLoop method k f (mergeStep method st)).1.active.length = k
        exact c2 (by omega)

/-- Claim C7.  Each swap pass applies at most one swap, only on strict
cost improvement; the loop stops as soon as a pass improves nothing; the
swap loop inside `pam` runs with the fixed fuel `100`; and the
hierarchical solver performs exactly `n - k` merge steps.  (Both solvers
are total functions of their inputs, so termination is by
construction.) -/
theorem C7_termination {α : Type} [LinearOrderedField α] :
    (∀ (n : ℕ) (d : ℕ → ℕ → α) (k : ℕ) (medoids m2 : List ℕ),
      pamSwapPass n d k medoids = some m2 →
      (∃ mi c, mi < k ∧ c < n ∧ c ∉ medoids ∧ m2 = medoids.set mi c) ∧
      assignCost n d m2 < assignCost n d medoids) ∧
    (∀ (n : ℕ) (d : ℕ → ℕ → α) (k : ℕ) (medoids : List ℕ) (fuel : ℕ),
      pamSwapPass n d k medoids = none →
      pamSwapLoop n d k fuel medoids = medoids) ∧
    (∀ (n : ℕ) (d : ℕ → ℕ → α) (k : ℕ),
      pam n d k = pamAssign n d k
        ((pamSwapLoop n d k 100 (pamBuild n d k).1).insertionSort
          (fun a b => a ≤ b))) ∧
    (∀ (n : ℕ) (d : ℕ → ℕ → α) (k : ℕ) (method : String), 1 ≤ k → k ≤ n →
      hierMergeCount n d k method = n - k) := by
  refine ⟨pamSwapPass_improves, pamSwapLoop_stops, fun _ _ _ => rfl, ?_⟩
  intro n d k method hk hkn
  unfold hierMergeCount
  have := (hierLoop_count method k hk n
    ⟨List.range n, fun i => [i], fun _ => 1,
      if method = "ward.D2" then fun i j => d i j * d i j else d⟩
    (by simpa using List.nodup_range n) (by simpa using by omega)).1
  simpa using this

unseal Rat.add Rat.sub Rat.mul in
/-- Witness for C7: a five-point line metric where the greedy build is
suboptimal (one improving swap exists), the all-tied two-point matrix
where no pass improves, and a concrete merge count. -/
theorem C7_termination_witness :
    ((∃ mi c, mi < 2 ∧ c < 5 ∧ c ∉ [4, 3] ∧
        ([1, 3] : List ℕ) = ([4, 3] : List ℕ).set mi c) ∧
      assignCost 5 (fun i j => ((([[0, 1, 20, 21, 10], [1, 0, 19, 20, 9],
          [20, 19, 0, 1, 10], [21, 20, 1, 0, 11], [10, 9, 10, 11, 0]] :
          List (List ℚ)).getD i []).getD j 0)) [1, 3] <
        assignCost 5 (fun i j => ((([[0, 1, 20, 21, 10], [1, 0, 19, 20, 9],
          [20, 19, 0, 1, 10], [21, 20, 1, 0, 11], [10, 9, 10, 11, 0]] :
          List (List ℚ)).getD i []).getD j 0)) [4, 3]) ∧
    pamSwapLoop 2 (fun _ _ => (0 : ℚ)) 2 100 [1, 0] = [1, 0] ∧
    hierMergeCount 6 (fun _ _ => (0 : ℚ)) 2 "average" = 6 - 2 := by
  refine ⟨C7_termination.1 5 _ 2 [4, 3] [1, 3] (by decide),
    C7_termination.2.1 2 _ 2 [1, 0] 100 (by decide),
    C7_termination.2.2.2 6 _ 2 "average" (by decide) (by decide)⟩

/-! ## Claim C6: PAM build-phase tie breaking -/

/-- `pamFirstMedoid` is the abstract scan at the row sums. -/
lemma pamFirstMedoid_eq {α : Type} [LinearOrderedField α] (n : ℕ)
    (d : ℕ → ℕ → α) : pamFirstMedoid n d = argminLastAux (totalDistFrom n d) n :=
  rfl

/-- The replace-on-`<=` scan returns the largest index attaining the
minimum. -/
lemma argminLastAux_spec {β : Type} [LinearOrder β] (g : ℕ → β) :
    ∀ n, 1 ≤ n → argminLastAux g n < n ∧
      (∀ i, i < n → g (argminLastAux g n) ≤ g i) ∧
      (∀ i, i < n → g i = g (argminLastAux g n) → i ≤ argminLastAux g n) := by
  intro n
  induction n with
  | zero => omega
  | succ m ih =>
    intro _
    by_cases hm : 1 ≤ m
    · have hsplit : (List.range (m + 1)).drop 1 = (List.range m).drop 1 ++ [m] := by
        rw [List.range_succ, List.drop_append_of_le_length (by simpa using hm)]
      have hstep : argminLastAux g (m + 1) =
          if g m ≤ g (argminLastAux g m) then m else argminLastAux g m := by
        unfold argminLastAux
        rw [hsplit, List.foldl_append]
        rfl
      obtain ⟨ihb, ihmin, ihtie⟩ := ih hm
      by_cases hc : g m ≤ g (argminLastAux g m)
      · rw [hstep, if_pos hc]
        refine ⟨by omega, ?_, ?_⟩
        · intro i hi
          rcases Nat.lt_succ_iff_lt_or_eq.mp hi with h | h
          · exact le_trans hc (ihmin i h)
          · subst h; exact le_refl _
        · intro i hi _
          omega
      · rw [hstep, if_neg hc]
        have hlt := lt_of_not_le hc
        refine ⟨by omega, ?_, ?_⟩
        · intro i hi
          rcases Nat.lt_succ_iff_lt_or_eq.mp hi with h | h
          · exact ihmin i h
          · subst h; exact le_of_lt hlt
        · intro i hi htie
          rcases Nat.lt_succ_iff_lt_or_eq.mp hi with h | h
          · exact ihtie i h htie
          · subst h; exact absurd htie (ne_of_gt hlt)
    · have hm0 : m = 0 := by omega
      subst hm0
      refine ⟨Nat.zero_lt_one, ?_, ?_⟩
      · intro i hi
        interval_cases i
        exact le_refl _
      · intro i hi _
        omega

/-- `pamSelectNext` is the abstract scan at the gains, skipping current
medoids. -/
lemma pamSelectNext_eq {α : Type} [LinearOrderedField α] (n : ℕ)
    (d : ℕ → ℕ → α) (medoids : List ℕ) (nearest : ℕ → α) :
    pamSelectNext n d medoids nearest =
      (argmaxLastFold (pamGain n d nearest) medoids n).2 :=
  rfl

/-- The replace-on-`>=` scan returns the largest non-skipped index
attaining the maximum (and `(⊥, none)` when everything is skipped). -/
lemma argmaxLastFold_spec {β : Type} [LinearOrder β] (g : ℕ → β)
    (skip : List ℕ) :
    ∀ n, ((¬ ∃ c, c < n ∧ c ∉ skip) → argmaxLastFold g skip n = (⊥, none)) ∧
      ((∃ c, c < n ∧ c ∉ skip) → ∃ c₀,
        argmaxLastFold g skip n = (((g c₀ : β) : WithBot β), some c₀) ∧
        c₀ < n ∧ c₀ ∉ skip ∧ (∀ c, c < n → c ∉ skip → g c ≤ g c₀) ∧
        (∀ c, c < n → c ∉ skip → g c = g c₀ → c ≤ c₀)) := by
  intro n
  induction n with
  | zero =>
    refine ⟨fun _ => rfl, fun h => absurd h (by simp)⟩
  | succ m ih =>
    have hstep : argmaxLastFold g skip (m + 1) =
        (fun st c =>
          if c ∈ skip then st
          else if st.1 ≤ ((g c : β) : WithBot β) then
            (((g c : β) : WithBot β), some c)
          else st) (argmaxLastFold g skip m) m := by
      unfold argmaxLastFold
      rw [List.range_succ, List.foldl_append]
      rfl
    by_cases hmem : m ∈ skip
    · constructor
      · intro hno
        have hno' : ¬ ∃ c, c < m ∧ c ∉ skip := by
          rintro ⟨c, hc, hcs⟩
          exact hno ⟨c, by omega, hcs⟩
        rw [hstep, ih.1 hno']
        simp [hmem]
      · rintro ⟨c, hc, hcs⟩
        have hcm : c < m := by
          rcases Nat.lt_succ_iff_lt_or_eq.mp hc with h | h
          · exact h
          · subst h; exact absurd hmem hcs
        obtain ⟨c₀, heq, hb, hs, hmax, htie⟩ := ih.2 ⟨c, hcm, hcs⟩
        refine ⟨c₀, ?_, by omega, hs, ?_, ?_⟩
        · rw [hstep, heq]
          simp [hmem]
        · intro c2 hc2 hc2s
          have : c2 < m := by
            rcases Nat.lt_succ_iff_lt_or_eq.mp hc2 with h | h
            · exact h
            · subst h; exact absurd hmem hc2s
          exact hmax c2 this hc2s
        · intro c2 hc2 hc2s he
          have : c2 < m := by
            rcases Nat.lt_succ_iff_lt_or_eq.mp hc2 with h | h
            · exact h
            · subst h; exact absurd hmem hc2s
          exact htie c2 this hc2s he
    · constructor
      · intro hno
        exact absurd ⟨m, by omega, hmem⟩ hno
      · intro _
        by_cases hprev : ∃ c, c < m ∧ c ∉ skip
        · obtain ⟨c₀, heq, hb, hs, hmax, htie⟩ := ih.2 hprev
          by_cases hcmp : g c₀ ≤ g m
          · refine ⟨m, ?_, by omega, hmem, ?_, ?_⟩
            · rw [hstep, heq]
              simp only [if_neg hmem]
              rw [if_pos (WithBot.coe_le_coe.mpr hcmp)]
            · intro c hc hcs
              rcases Nat.lt_succ_iff_lt_or_eq.mp hc with h | h
              · exact le_trans (hmax c h hcs) hcmp
              · subst h; exact le_refl _
            · intro c hc _ _
              omega
          · have hlt := lt_of_not_le hcmp
            refine ⟨c₀, ?_, by omega, hs, ?_, ?_⟩
            · rw [hstep, heq]
              simp only [if_neg hmem]
              rw [if_neg (fun hcon => hcmp (WithBot.coe_le_coe.mp hcon))]
            · intro c hc hcs
              rcases Nat.lt_succ_iff_lt_or_eq.mp hc with h | h
              · exact hmax c h hcs
              · subst h; exact le_of_lt hlt
            · intro c hc hcs he
              rcases Nat.lt_succ_iff_lt_or_eq.mp hc with h | h
              · exact htie c h hcs he
              · subst h; exact absurd he (ne_of_lt hlt)
        · refine ⟨m, ?_, by omega, hmem, ?_, ?_⟩
          · rw [hstep, ih.1 hprev]
            simp only [if_neg hmem]
            rw [if_pos bot_le]
          · intro c hc hcs
            rcases Nat.lt_succ_iff_lt_or_eq.mp hc with h | h
            · exact absurd ⟨c, h, hcs⟩ hprev
            · subst h; exact le_refl _
          · intro c hc _ _
            omega

/-- Claim C6.  The first medoid is the largest index attaining the
minimum total distance (ascending scan replacing on `<=`), and each
subsequent medoid selection returns the largest-index non-medoid
candidate attaining the maximum aggregate gain (replace on `>=`). -/
theorem C6_build_phase_tie_breaking {α : Type} [LinearOrderedField α]
    (n : ℕ) (d : ℕ → ℕ → α) :
    (1 ≤ n →
      pamFirstMedoid n d < n ∧
      (∀ i, i < n → totalDistFrom n d (pamFirstMedoid n d) ≤ totalDistFrom n d i) ∧
      (∀ i, i < n → totalDistFrom n d i = totalDistFrom n d (pamFirstMedoid n d) →
        i ≤ pamFirstMedoid n d)) ∧
    (∀ (medoids : List ℕ) (nearest : ℕ → α), (∃ c, c < n ∧ c ∉ medoids) →
      ∃ c₀, pamSelectNext n d medoids nearest = some c₀ ∧ c₀ < n ∧
        c₀ ∉ medoids ∧
        (∀ c, c < n → c ∉ medoids →
          pamGain n d nearest c ≤ pamGain n d nearest c₀) ∧
        (∀ c, c < n → c ∉ medoids →
          pamGain n d nearest c = pamGain n d nearest c₀ → c ≤ c₀)) := by
  constructor
  · intro hn
    rw [pamFirstMedoid_eq]
    exact argminLastAux_spec (totalDistFrom n d) n hn
  · intro medoids nearest hex
    obtain ⟨c₀, heq, hb, hs, hmax, htie⟩ :=
      (argmaxLastFold_spec (pamGain n d nearest) medoids n).2 hex
    refine ⟨c₀, ?_, hb, hs, hmax, htie⟩
    rw [pamSelectNext_eq, heq]

/-- Witness for C6: a concrete 2-observation zero matrix with medoid
set `[1]`. -/
theorem C6_build_phase_tie_breaking_witness :
    (pamFirstMedoid 2 (fun _ _ => (0 : ℚ)) < 2 ∧
      (∀ i, i < 2 → totalDistFrom 2 (fun _ _ => (0 : ℚ))
          (pamFirstMedoid 2 (fun _ _ => (0 : ℚ))) ≤
        totalDistFrom 2 (fun _ _ => (0 : ℚ)) i) ∧
      (∀ i, i < 2 → totalDistFrom 2 (fun _ _ => (0 : ℚ)) i =
          totalDistFrom 2 (fun _ _ => (0 : ℚ))
            (pamFirstMedoid 2 (fun _ _ => (0 : ℚ))) →
        i ≤ pamFirstMedoid 2 (fun _ _ => (0 : ℚ)))) ∧
    (∃ c₀, pamSelectNext 2 (fun _ _ => (0 : ℚ)) [1] (fun _ => 0) = some c₀ ∧
      c₀ < 2 ∧ c₀ ∉ [1] ∧
      (∀ c, c < 2 → c ∉ [1] →
        pamGain 2 (fun _ _ => (0 : ℚ)) (fun _ => 0) c ≤
          pamGain 2 (fun _ _ => (0 : ℚ)) (fun _ => 0) c₀) ∧
      (∀ c, c < 2 → c ∉ [1] →
        pamGain 2 (fun _ _ => (0 : ℚ)) (fun _ => 0) c =
          pamGain 2 (fun _ _ => (0 : ℚ)) (fun _ => 0) c₀ → c ≤ c₀)) :=
  ⟨(C6_build_phase_tie_breaking 2 (fun _ _ => (0 : ℚ))).1 (by decide),
    (C6_build_phase_tie_breaking 2 (fun _ _ => (0 : ℚ))).2 [1] (fun _ => 0)
      ⟨0, by decide, by decide⟩⟩

/-- Witness for C10 at `k = 2`. -/
theorem C10_empty_input_witness :
    clusterData (.numRows []) 2 noOptions =
      .error ("k=" ++ toString 2 ++ " exceeds number of sequences (" ++ toString (0 : ℕ) ++ ")") ∧
    isNumericData (.numRows []) = false :=
  ⟨(C10_empty_input 2 noOptions (by decide)).2.1,
    (C10_empty_input 2 noOptions (by decide)).2.2.2.1⟩

/-! ## Claim C5: the silhouette scorer -/

section SilhouetteLemmas

variable {α : Type} [LinearOrderedField α]

/-- A conditional sum-and-count fold equals the sum and length over the
filtered list. -/
lemma foldl_pair_sum (f : ℕ → α) (P : ℕ → Prop) [DecidablePred P] :
    ∀ (l : List ℕ) (s0 : α) (c0 : ℕ),
      l.foldl (fun sc j => if P j then (sc.1 + f j, sc.2 + 1) else sc) (s0, c0) =
      (s0 + ((l.filter (fun j => decide (P j))).map f).sum,
        c0 + (l.filter (fun j => decide (P j))).length) := by
  intro l
  induction l with
  | nil => intro s0 c0; simp
  | cons x xs ih =>
    intro s0 c0
    by_cases hx : P x
    · rw [List.foldl_cons, if_pos hx, ih,
        show (x :: xs).filter (fun j => decide (P j)) =
          x :: xs.filter (fun j => decide (P j)) by simp [List.filter_cons, hx]]
      refine Prod.ext ?_ ?_
      · show s0 + f x + _ = s0 + _
        simp [add_assoc]
      · show c0 + 1 + _ = c0 + _
        simp only [List.length_cons]
        omega
    · rw [List.foldl_cons, if_neg hx, ih,
        show (x :: xs).filter (fun j => decide (P j)) =
          xs.filter (fun j => decide (P j)) by simp [List.filter_cons, hx]]

/-- The `a(i)` fold computes the sum and size of the spec-side member
list. -/
lemma silSameFold_eq (d : ℕ → ℕ → α) (labels : List ℕ) (i : ℕ) :
    silSameFold d labels labels.length i (labels.getD i 0) =
      (((silSpecSame labels i).map (d i)).sum, (silSpecSame labels i).length) := by
  unfold silSameFold silSpecSame
  rw [foldl_pair_sum (d i) (fun j => j ≠ i ∧ labels.getD j 0 = labels.getD i 0)]
  simp

/-- The `b(i)` inner fold computes the sum and size of the spec-side
cluster list. -/
lemma silOtherFold_eq (d : ℕ → ℕ → α) (labels : List ℕ) (i c : ℕ) :
    silOtherFold d labels labels.length i c =
      (((silSpecCluster labels c).map (d i)).sum,
        (silSpecCluster labels c).length) := by
  unfold silOtherFold silSpecCluster
  rw [foldl_pair_sum (d i) (fun j => labels.getD j 0 = c)]
  simp

/-- The embedded `b(i)` fold agrees with the spec-side
filter-map-minimum. -/
lemma silB_eq (d : ℕ → ℕ → α) (labels : List ℕ) (i : ℕ) :
    silB d labels (uniqueInOrder labels) labels.length i (labels.getD i 0) =
      silSpecB d labels i := by
  have aux : ∀ (uniq : List ℕ) (acc : WithTop α),
      uniq.foldl
        (fun bi c =>
          if c = labels.getD i 0 then bi
          else
            let so := silOtherFold d labels labels.length i c
            if 0 < so.2 then min bi (((so.1 / so.2 : α) : WithTop α)) else bi)
        acc =
      ((uniq.filter (fun c => decide (c ≠ labels.getD i 0) &&
          !(silSpecCluster labels c).isEmpty)).map
        (fun c => ((((silSpecCluster labels c).map (d i)).sum /
          (silSpecCluster labels c).length : α) : WithTop α))).foldl min acc := by
    intro uniq
    induction uniq with
    | nil => intro acc; rfl
    | cons c cs ih =>
      intro acc
      rw [List.foldl_cons]
      dsimp only
      have hso := silOtherFold_eq d labels i c
      by_cases hc : c = labels.getD i 0
      · rw [if_pos hc,
          show (c :: cs).filter (fun c => decide (c ≠ labels.getD i 0) &&
              !(silSpecCluster labels c).isEmpty) =
            cs.filter (fun c => decide (c ≠ labels.getD i 0) &&
              !(silSpecCluster labels c).isEmpty) by
            rw [List.filter_cons, if_neg]
            intro h
            exact (of_decide_eq_true ((Bool.and_eq_true _ _).mp h).1) hc]
        exact ih acc
      · rw [if_neg hc]
        by_cases hemp : 0 < (silOtherFold d labels labels.length i c).2
        · have hlen : 0 < (silSpecCluster labels c).length := by
            rw [hso] at hemp
            exact hemp
          have hne : (!(silSpecCluster labels c).isEmpty) = true := by
            simp only [Bool.not_eq_true', List.isEmpty_eq_false_iff_exists_mem]
            rcases List.exists_mem_of_length_pos hlen with ⟨x, hx⟩
            exact ⟨x, hx⟩
          rw [if_pos hemp,
            show (c :: cs).filter (fun c => decide (c ≠ labels.getD i 0) &&
                !(silSpecCluster labels c).isEmpty) =
              c :: cs.filter (fun c => decide (c ≠ labels.getD i 0) &&
                !(silSpecCluster labels c).isEmpty) by
              rw [List.filter_cons, if_pos]
              rw [Bool.and_eq_true, decide_eq_true_eq]
              exact ⟨hc, hne⟩]
          rw [List.map_cons, List.foldl_cons, hso, ih]
        · have hlen : ¬ 0 < (silSpecCluster labels c).length := by
            rw [hso] at hemp
            exact hemp
          have hne : (!(silSpecCluster labels c).isEmpty) = false := by
            simp only [Bool.not_eq_false', List.isEmpty_iff]
            cases hsc : silSpecCluster labels c with
            | nil => rfl
            | cons y ys => rw [hsc] at hlen; simp at hlen
          rw [if_neg hemp,
            show (c :: cs).filter (fun c => decide (c ≠ labels.getD i 0) &&
                !(silSpecCluster labels c).isEmpty) =
              cs.filter (fun c => decide (c ≠ labels.getD i 0) &&
                !(silSpecCluster labels c).isEmpty) by
              rw [List.filter_cons, if_neg]
              intro h
              rw [((Bool.and_eq_true _ _).mp h).2] at hne
              exact absurd hne (by decide)]
          exact ih acc
  exact aux (uniqueInOrder labels) ⊤

/-- Accumulating fold of additions equals the list sum. -/
lemma foldl_add_eq_sum (f : ℕ → α) :
    ∀ (l : List ℕ) (s0 : α),
      l.foldl (fun t j => t + f j) s0 = s0 + (l.map f).sum := by
  intro l
  induction l with
  | nil => intro s0; simp
  | cons x xs ih =>
    intro s0
    rw [List.foldl_cons, ih, List.map_cons, List.sum_cons, add_assoc]

/-- Spec-side `a(i)` is non-negative on a non-negative matrix. -/
lemma silSpecA_nonneg (d : ℕ → ℕ → α) (labels : List ℕ) (i : ℕ)
    (hnn : ∀ a, a < labels.length → ∀ b, b < labels.length → 0 ≤ d a b)
    (hi : i < labels.length) : 0 ≤ silSpecA d labels i := by
  unfold silSpecA
  apply div_nonneg _ (by positivity)
  apply List.sum_nonneg
  intro x hx
  rcases List.mem_map.mp hx with ⟨j, hj, rfl⟩
  exact hnn i hi j (List.mem_range.mp (List.mem_of_mem_filter hj))

/-- Every finite value of the spec-side `b(i)` is non-negative on a
non-negative matrix. -/
lemma silSpecB_nonneg (d : ℕ → ℕ → α) (labels : List ℕ) (i : ℕ)
    (hnn : ∀ a, a < labels.length → ∀ b, b < labels.length → 0 ≤ d a b)
    (hi : i < labels.length) :
    ∀ b : α, silSpecB d labels i = (b : WithTop α) → 0 ≤ b := by
  have key : (0 : WithTop α) ≤ silSpecB d labels i := by
    unfold silSpecB
    apply foldl_preserve_mem (fun bi => (0 : WithTop α) ≤ bi)
    · intro st c _ hP
      refine le_min hP ?_
      rcases List.mem_map.mp (by assumption) with _
      case _ h =>
        obtain ⟨c2, hc2, rfl⟩ := h
        rw [show ((0 : WithTop α)) = ((0 : α) : WithTop α) by rfl]
        rw [WithTop.coe_le_coe]
        apply div_nonneg _ (by positivity)
        apply List.sum_nonneg
        intro x hx
        rcases List.mem_map.mp hx with ⟨j, hj, rfl⟩
        exact hnn i hi j (List.mem_range.mp (List.mem_of_mem_filter hj))
    · exact le_top
  intro b hb
  rw [hb] at key
  exact WithTop.coe_le_coe.mp key

/-- The embedded per-observation contribution agrees with the spec-side
coefficient on a non-negative matrix. -/
lemma silhouetteContrib_eq (d : ℕ → ℕ → α) (labels : List ℕ) (i : ℕ)
    (hnn : ∀ a, a < labels.length → ∀ b, b < labels.length → 0 ≤ d a b)
    (hi : i < labels.length) :
    silhouetteContrib d labels (uniqueInOrder labels) labels.length i =
      silSpecCoef d labels i := by
  simp only [silhouetteContrib, silSpecCoef]
  rw [silSameFold_eq, silB_eq]
  by_cases h0 : (silSpecSame labels i).length = 0
  · rw [if_pos h0, if_pos h0]
  · rw [if_neg h0, if_neg h0]
    cases hb : silSpecB d labels i with
    | top => rfl
    | coe b =>
      have ha := silSpecA_nonneg d labels i hnn hi
      have hbnn := silSpecB_nonneg d labels i hnn hi b hb
      have hmax : 0 ≤ max (silSpecA d labels i) b := le_max_of_le_right hbnn
      show (if 0 < max (((silSpecSame labels i).map (d i)).sum /
          ((silSpecSame labels i).length : α)) b then _ else _) = _
      have hspecA : silSpecA d labels i =
          ((silSpecSame labels i).map (d i)).sum /
            ((silSpecSame labels i).length : α) := rfl
      rw [← hspecA]
      show (if 0 < max (silSpecA d labels i) b then
          (b - silSpecA d labels i) / max (silSpecA d labels i) b else 0) =
        (if max (silSpecA d labels i) b = 0 then 0
          else (b - silSpecA d labels i) / max (silSpecA d labels i) b)
      by_cases hz : max (silSpecA d labels i) b = 0
      · rw [if_neg (by rw [hz]; exact lt_irrefl 0), if_pos hz]
      · rw [if_pos (lt_of_le_of_ne hmax (Ne.symm hz)), if_neg hz]

/-- The spec-side coefficient lies in `[-1, 1]` on a non-negative
matrix. -/
lemma silSpecCoef_bounds (d : ℕ → ℕ → α) (labels : List ℕ) (i : ℕ)
    (hnn : ∀ a, a < labels.length → ∀ b, b < labels.length → 0 ≤ d a b)
    (hi : i < labels.length) :
    -1 ≤ silSpecCoef d labels i ∧ silSpecCoef d labels i ≤ 1 := by
  unfold silSpecCoef
  by_cases h0 : (silSpecSame labels i).length = 0
  · rw [if_pos h0]
    constructor <;> norm_num
  · rw [if_neg h0]
    cases hb : silSpecB d labels i with
    | top => constructor <;> norm_num
    | coe b =>
      have ha := silSpecA_nonneg d labels i hnn hi
      have hbnn := silSpecB_nonneg d labels i hnn hi b hb
      show -1 ≤ (if max (silSpecA d labels i) b = 0 then (0 : α)
          else (b - silSpecA d labels i) / max (silSpecA d labels i) b) ∧
        (if max (silSpecA d labels i) b = 0 then (0 : α)
          else (b - silSpecA d labels i) / max (silSpecA d labels i) b) ≤ 1
      by_cases hz : max (silSpecA d labels i) b = 0
      · rw [if_pos hz]
        constructor <;> norm_num
      · rw [if_neg hz]
        have hmax : 0 < max (silSpecA d labels i) b :=
          lt_of_le_of_ne (le_max_of_le_right hbnn) (Ne.symm hz)
        constructor
        · rw [le_div_iff hmax]
          have h1 : silSpecA d labels i ≤ max (silSpecA d labels i) b :=
            le_max_left _ _
          linarith
        · rw [div_le_one hmax]
          have h1 : b ≤ max (silSpecA d labels i) b := le_max_right _ _
          linarith

/-- Sums of lists of values in `[-1, 1]` are bounded by the length. -/
lemma sum_bounds_of_mem (f : ℕ → α) :
    ∀ (l : List ℕ), (∀ x ∈ l, -1 ≤ f x ∧ f x ≤ 1) →
      -(l.length : α) ≤ (l.map f).sum ∧ (l.map f).sum ≤ l.length := by
  intro l
  induction l with
  | nil => intro _; simp
  | cons x xs ih =>
    intro h
    obtain ⟨h1, h2⟩ := h x (List.mem_cons_self _ _)
    obtain ⟨h3, h4⟩ := ih (fun y hy => h y (List.mem_cons_of_mem _ hy))
    simp only [List.map_cons, List.sum_cons, List.length_cons]
    push_cast
    constructor <;> linarith

/-- Claim C5.  For every symmetric non-negative distance matrix and
every partition: the silhouette score is `0` when fewer than two
distinct cluster ids exist, it always lies in `[-1, 1]`, singleton
observations contribute `0`, and the score equals the arithmetic mean of
the spec-side per-observation coefficients
`(b(i) - a(i)) / max(a(i), b(i))` (with `0` at a vanishing maximum). -/
theorem C5_silhouette_score {α : Type} [LinearOrderedField α]
    (d : ℕ → ℕ → α) (labels : List ℕ)
    (hsym : ∀ a, a < labels.length → ∀ b, b < labels.length → d a b = d b a)
    (hnn : ∀ a, a < labels.length → ∀ b, b < labels.length → 0 ≤ d a b) :
    ((uniqueInOrder labels).length < 2 → silhouetteScore d labels = 0) ∧
    (-1 ≤ silhouetteScore d labels ∧ silhouetteScore d labels ≤ 1) ∧
    (∀ i, i < labels.length →
      (silSameFold d labels labels.length i (labels.getD i 0)).2 = 0 →
      silhouetteContrib d labels (uniqueInOrder labels) labels.length i = 0) ∧
    silhouetteScore d labels = silhouetteSpecScore d labels := by
  have hscore : silhouetteScore d labels = silhouetteSpecScore d labels := by
    unfold silhouetteScore silhouetteSpecScore
    by_cases hu : (uniqueInOrder labels).length < 2
    · rw [if_pos hu, if_pos hu]
    · rw [if_neg hu, if_neg hu, foldl_add_eq_sum, zero_add]
      have hmap : (List.range labels.length).map
          (silhouetteContrib d labels (uniqueInOrder labels) labels.length) =
          (List.range labels.length).map (silSpecCoef d labels) :=
        List.map_congr_left (fun i hi =>
          silhouetteContrib_eq d labels i hnn (List.mem_range.mp hi))
      rw [hmap]
  refine ⟨?_, ?_, ?_, hscore⟩
  · intro hu
    unfold silhouetteScore
    rw [if_pos hu]
  · rw [hscore]
    unfold silhouetteSpecScore
    by_cases hu : (uniqueInOrder labels).length < 2
    · rw [if_pos hu]
      constructor <;> norm_num
    · rw [if_neg hu]
      have hne : labels ≠ [] := by
        intro he
        rw [he] at hu
        exact hu (by decide)
      have hn : 0 < (labels.length : α) := by
        have := List.length_pos.mpr hne
        positivity
      obtain ⟨hs1, hs2⟩ := sum_bounds_of_mem (silSpecCoef d labels)
        (List.range labels.length)
        (fun x hx => silSpecCoef_bounds d labels x hnn (List.mem_range.mp hx))
      simp only [List.length_range] at hs1 hs2
      constructor
      · rw [le_div_iff hn]
        linarith
      · rw [div_le_one hn]
        exact hs2
  · intro i hi hzero
    simp only [silhouetteContrib]
    rw [if_pos hzero]

/-- Witness for C5: the zero matrix over two observations in two
distinct clusters. -/
theorem C5_silhouette_score_witness :
    ((uniqueInOrder [1, 2]).length < 2 →
      silhouetteScore (fun _ _ => (0 : ℚ)) [1, 2] = 0) ∧
    (-1 ≤ silhouetteScore (fun _ _ => (0 : ℚ)) [1, 2] ∧
      silhouetteScore (fun _ _ => (0 : ℚ)) [1, 2] ≤ 1) ∧
    (∀ i, i < ([1, 2] : List ℕ).length →
      (silSameFold (fun _ _ => (0 : ℚ)) [1, 2] ([1, 2] : List ℕ).length i
        (([1, 2] : List ℕ).getD i 0)).2 = 0 →
      silhouetteContrib (fun _ _ => (0 : ℚ)) [1, 2] (uniqueInOrder [1, 2])
        ([1, 2] : List ℕ).length i = 0) ∧
    silhouetteScore (fun _ _ => (0 : ℚ)) [1, 2] =
      silhouetteSpecScore (fun _ _ => (0 : ℚ)) [1, 2] :=
  C5_silhouette_score (fun _ _ => (0 : ℚ)) [1, 2]
    (by intro a _ b _; rfl) (by intro a _ b _; exact le_refl 0)

end SilhouetteLemmas

/-- Evaluating a stamped assignment function: members get the stamp,
everyone else keeps their previous value. -/
lemma stampCluster_apply (members : List ℕ) :
    ∀ (g : ℕ → ℕ) (v p : ℕ),
      stampCluster members g v p = if p ∈ members then v else g p := by
  induction members with
  | nil => intro g v p; simp [stampCluster]
  | cons m ms ih =>
    intro g v p
    show stampCluster ms (Function.update g m v) v p = _
    rw [ih]
    by_cases hms : p ∈ ms
    · rw [if_pos hms, if_pos (List.mem_cons_of_mem _ hms)]
    · rw [if_neg hms, Function.update_apply]
      by_cases hm : p = m
      · rw [if_pos hm, if_pos (hm ▸ List.mem_cons_self m ms)]
      · rw [if_neg hm, if_neg (by simp [hm, hms])]

/-- A point in no stamped cluster keeps its initial label. -/
lemma assignFold_not_mem (clusters : ℕ → List ℕ) :
    ∀ (l : List ℕ) (st : (ℕ → ℕ) × ℕ) (p : ℕ),
      (∀ c ∈ l, p ∉ clusters c) →
      (l.foldl (fun st ci => (stampCluster (clusters ci) st.1 st.2, st.2 + 1))
        st).1 p = st.1 p := by
  intro l
  induction l with
  | nil => intro st p _; rfl
  | cons x xs ih =>
    intro st p hout
    rw [List.foldl_cons, ih _ p (fun c hc => hout c (List.mem_cons_of_mem _ hc))]
    show stampCluster (clusters x) st.1 st.2 p = st.1 p
    rw [stampCluster_apply, if_neg (hout x (List.mem_cons_self _ _))]

/-- A point lying in exactly one stamped cluster receives the 1-origin
position of that cluster id in the stamping order. -/
lemma assignFold_mem (clusters : ℕ → List ℕ) :
    ∀ (l : List ℕ) (st : (ℕ → ℕ) × ℕ) (c p : ℕ), l.Nodup → c ∈ l →
      p ∈ clusters c → (∀ c2 ∈ l, p ∈ clusters c2 → c2 = c) →
      (l.foldl (fun st ci => (stampCluster (clusters ci) st.1 st.2, st.2 + 1))
        st).1 p = st.2 + l.indexOf c := by
  intro l
  induction l with
  | nil => intro st c p _ hc; exact absurd hc (List.not_mem_nil c)
  | cons x xs ih =>
    intro st c p hnd hc hpc huniq
    rw [List.foldl_cons]
    by_cases hxc : x = c
    · subst hxc
      have hout : ∀ c2 ∈ xs, p ∉ clusters c2 := by
        intro c2 hc2 hp2
        exact (List.nodup_cons.mp hnd).1 ((huniq c2 (List.mem_cons_of_mem _ hc2) hp2) ▸ hc2)
      rw [assignFold_not_mem clusters xs _ p hout]
      show stampCluster (clusters x) st.1 st.2 p = st.2 + (x :: xs).indexOf x
      rw [stampCluster_apply, if_pos hpc, List.indexOf_cons_self]
      omega
    · have hcxs : c ∈ xs := by
        cases List.mem_cons.mp hc with
        | inl h => exact absurd h.symm hxc
        | inr h => exact h
      have hkey := ih (stampCluster (clusters x) st.1 st.2, st.2 + 1) c p
        (List.nodup_cons.mp hnd).2 hcxs hpc
        (fun c2 hc2 hp2 => huniq c2 (List.mem_cons_of_mem _ hc2) hp2)
      rw [hkey, List.indexOf_cons_ne _ hxc]
      show st.2 + 1 + xs.indexOf c = st.2 + (xs.indexOf c + 1)
      omega

/-- On duplicate-free lists, the index of the `t`-th element is `t`. -/
lemma nodup_indexOf_get (l : List ℕ) (hnd : l.Nodup) (t : ℕ) (ht : t < l.length) :
    l.indexOf (l.get ⟨t, ht⟩) = t := by
  have h1 : l.indexOf (l.get ⟨t, ht⟩) < l.length :=
    List.indexOf_lt_length.mpr (l.get_mem t ht)
  have h2 : l.get ⟨l.indexOf (l.get ⟨t, ht⟩), h1⟩ = l.get ⟨t, ht⟩ :=
    List.indexOf_get h1
  have h3 := (List.Nodup.get_inj_iff hnd).mp h2
  exact congrArg Fin.val h3

/-- The initial hierarchical state (each observation its own cluster)
satisfies the loop invariant. -/
lemma HInv_init {α : Type} [LinearOrderedField α] (n : ℕ) (d0 : ℕ → ℕ → α) :
    HInv n (⟨List.range n, fun i => [i], fun _ => 1, d0⟩ : HState α) := by
  refine ⟨List.nodup_range n, ?_, ?_, ?_, ?_⟩
  · intro c hc p hp
    rw [List.mem_singleton.mp hp]
    exact List.mem_range.mp hc
  · intro p hp
    exact ⟨p, List.mem_range.mpr hp, List.mem_singleton_self p⟩
  · intro c1 _ c2 _ hne p hp1 hp2
    exact hne ((List.mem_singleton.mp hp1) ▸ (List.mem_singleton.mp hp2))
  · intro c _
    exact List.cons_ne_nil c []

/-- A merge step preserves the partition invariant. -/
lemma mergeStep_inv {α : Type} [LinearOrderedField α] (method : String) (n : ℕ)
    (st : HState α) (h2 : 2 ≤ st.active.length) (hinv : HInv n st) :
    HInv n (mergeStep method st) := by
  obtain ⟨hnd, hbound, hcov, hdisj, hne⟩ := hinv
  obtain ⟨p, hsel, hpm⟩ := selectClosestPair_spec st.dmat st.active h2
  obtain ⟨hp1, hp2⟩ := pairsOf_mem st.active p hpm
  have hpne : p.1 ≠ p.2 := pairsOf_ne st.active hnd p hpm
  have hact : (mergeStep method st).active = st.active.erase p.2 := by
    unfold mergeStep; rw [hsel]
  have hcl : (mergeStep method st).clusters = fun c =>
      if c = p.1 then st.clusters p.1 ++ st.clusters p.2 else st.clusters c := by
    unfold mergeStep; rw [hsel]
  have hmem_erase : ∀ c, c ∈ st.active.erase p.2 → c ∈ st.active ∧ c ≠ p.2 := by
    intro c hc
    refine ⟨List.mem_of_mem_erase hc, ?_⟩
    intro hcp
    exact (List.Nodup.not_mem_erase hnd) (hcp ▸ hc)
  unfold HInv
  rw [hact]
  simp only [hcl]
  refine ⟨hnd.erase _, ?_, ?_, ?_, ?_⟩
  · -- bounds
    intro c hc q hq
    obtain ⟨hca, _⟩ := hmem_erase c hc
    by_cases hcp : c = p.1
    · rw [if_pos hcp] at hq
      cases List.mem_append.mp hq with
      | inl h => exact hbound p.1 hp1 q h
      | inr h => exact hbound p.2 hp2 q h
    · rw [if_neg hcp] at hq
      exact hbound c hca q hq
  · -- coverage
    intro q hq
    obtain ⟨c0, hc0, hqc0⟩ := hcov q hq
    by_cases hc02 : c0 = p.2
    · refine ⟨p.1, (List.mem_erase_of_ne hpne).mpr hp1, ?_⟩
      rw [if_pos rfl]
      exact List.mem_append.mpr (Or.inr (hc02 ▸ hqc0))
    · refine ⟨c0, (List.mem_erase_of_ne hc02).mpr hc0, ?_⟩
      by_cases hc01 : c0 = p.1
      · rw [if_pos hc01]
        exact List.mem_append.mpr (Or.inl (hc01 ▸ hqc0))
      · rw [if_neg hc01]
        exact hqc0
  · -- disjointness
    intro c1 hc1 c2 hc2 hne12 q hq1 hq2
    obtain ⟨hc1a, hc1p2⟩ := hmem_erase c1 hc1
    obtain ⟨hc2a, hc2p2⟩ := hmem_erase c2 hc2
    by_cases h1p : c1 = p.1
    · rw [if_pos h1p] at hq1
      have h2p : c2 ≠ p.1 := fun h => hne12 (h1p.trans h.symm)
      rw [if_neg h2p] at hq2
      cases List.mem_append.mp hq1 with
      | inl h => exact hdisj p.1 hp1 c2 hc2a (fun he => h2p he.symm) q h hq2
      | inr h => exact hdisj p.2 hp2 c2 hc2a (fun he => hc2p2 he.symm) q h hq2
    · rw [if_neg h1p] at hq1
      by_cases h2p : c2 = p.1
      · rw [if_pos h2p] at hq2
        cases List.mem_append.mp hq2 with
        | inl h => exact hdisj c1 hc1a p.1 hp1 h1p q hq1 h
        | inr h => exact hdisj c1 hc1a p.2 hp2 hc1p2 q hq1 h
      · rw [if_neg h2p] at hq2
        exact hdisj c1 hc1a c2 hc2a hne12 q hq1 hq2
  · -- nonemptiness
    intro c hc
    obtain ⟨hca, _⟩ := hmem_erase c hc
    by_cases hcp : c = p.1
    · rw [if_pos hcp]
      intro habs
      exact hne p.1 hp1 (List.append_eq_nil.mp habs).1
    · rw [if_neg hcp]
      exact hne c hca

/-- The merge loop preserves the partition invariant. -/
lemma hierLoop_inv {α : Type} [LinearOrderedField α] (method : String)
    (n k : ℕ) (hk : 1 ≤ k) :
    ∀ (fuel : ℕ) (st : HState α), HInv n st →
      HInv n (hierLoop method k fuel st).1 := by
  intro fuel
  induction fuel with
  | zero => intro st h; exact h
  | succ f ih =>
    intro st h
    simp only [hierLoop]
    by_cases hstop : st.active.length ≤ k
    · rw [if_pos hstop]; exact h
    · rw [if_neg hstop]
      show HInv n (hierLoop method k f (mergeStep method st)).1
      exact ih _ (mergeStep_inv method n st (by omega) h)

/-- `pamAssign` yields one label per observation. -/
lemma pamAssign_length {α : Type} [LinearOrderedField α] (n : ℕ)
    (d : ℕ → ℕ → α) (k : ℕ) (sorted : List ℕ) :
    (pamAssign n d k sorted).length = n := by
  simp [pamAssign]

/-- `pamAssign` labels are 1-indexed slot positions, hence in `1 .. k`. -/
lemma pamAssign_mem {α : Type} [LinearOrderedField α] (n : ℕ)
    (d : ℕ → ℕ → α) (k : ℕ) (sorted : List ℕ) (hk : 0 < k) :
    ∀ v ∈ pamAssign n d k sorted, 1 ≤ v ∧ v ≤ k := by
  intro v hv
  simp only [pamAssign, List.mem_map] at hv
  obtain ⟨i, _, hvi⟩ := hv
  have key : (fun (st : WithTop α × ℕ) => st.2 < k)
      ((List.range k).foldl
        (fun st m =>
          if ((d i (sorted.getD m 0) : α) : WithTop α) < st.1 then
            (((d i (sorted.getD m 0) : α) : WithTop α), m)
          else st)
        ((⊤ : WithTop α), 0)) := by
    refine foldl_preserve_mem (fun (st : WithTop α × ℕ) => st.2 < k)
      (List.range k) _ ?_ _ hk
    intro st m hm hP
    dsimp only
    by_cases hlt : ((d i (sorted.getD m 0) : α) : WithTop α) < st.1
    · rw [if_pos hlt]
      exact List.mem_range.mp hm
    · rw [if_neg hlt]
      exact hP
  omega

/-- Claim C1 as stated is false for the PAM solver: on the all-zero
distance matrix over two observations with `k = 2`, assignment ties go
to the lower medoid slot, so cluster id `2` is never used. -/
theorem C1_counterexample_pam_empty_cluster :
    pam 2 (fun _ _ => (0 : ℚ)) 2 = [1, 1] ∧
    2 ∉ pam 2 (fun _ _ => (0 : ℚ)) 2 := by
  decide

/-- Claim C1, amended.  For every distance matrix and every `k` with
`2 <= k <= n`, both solvers return an assignment of length `n` with all
entries in `1 .. k`, and the hierarchical solver moreover uses every id
in `1 .. k` at least once; the PAM solver can leave ids unused (see the
counterexample), so surjectivity is claimed only for hierarchical. -/
theorem C1_amended_partition_validity {α : Type} [LinearOrderedField α]
    (n k : ℕ) (d : ℕ → ℕ → α) (method : String) (hk2 : 2 ≤ k) (hkn : k ≤ n) :
    (pam n d k).length = n ∧
    (∀ v ∈ pam n d k, 1 ≤ v ∧ v ≤ k) ∧
    (hierarchical n d k method).length = n ∧
    (∀ v ∈ hierarchical n d k method, 1 ≤ v ∧ v ≤ k) ∧
    (∀ v, 1 ≤ v → v ≤ k → v ∈ hierarchical n d k method) := by
  have hk0 : 0 < k := by omega
  -- the final state of the merge loop
  set D0 : ℕ → ℕ → α :=
    if method = "ward.D2" then fun i j => d i j * d i j else d with hD0
  set st0 : HState α := ⟨List.range n, fun i => [i], fun _ => 1, D0⟩ with hst0
  set stF : HState α := (hierLoop method k n st0).1 with hstF
  have hinit : HInv n st0 := HInv_init n D0
  have hinv : HInv n stF := hierLoop_inv method n k (by omega) n st0 hinit
  have hcount := hierLoop_count method k (by omega) n st0
    (List.nodup_range n) (by simp [hst0])
  have hlenF : stF.active.length = k := by
    refine hcount.2.1 ?_
    simpa [hst0] using hkn
  obtain ⟨hndF, hboundF, hcovF, hdisjF, hneF⟩ := hinv
  have hhier : hierarchical n d k method =
      (List.range n).map
        (stF.active.foldl
          (fun st ci => (stampCluster (stF.clusters ci) st.1 st.2, st.2 + 1))
          ((fun _ => 0 : ℕ → ℕ), 1)).1 := by
    simp only [hierarchical, assignFromClusters, hstF, hst0, hD0]
  refine ⟨?_, ?_, ?_, ?_, ?_⟩
  · -- pam length
    show (pamAssign n d k _).length = n
    exact pamAssign_length n d k _
  · -- pam entries in range
    intro v hv
    exact pamAssign_mem n d k _ hk0 v hv
  · -- hierarchical length
    rw [hhier]
    simp
  · -- hierarchical entries in range
    intro v hv
    rw [hhier] at hv
    obtain ⟨pt, hpt, hval⟩ := List.mem_map.mp hv
    have hptn : pt < n := List.mem_range.mp hpt
    obtain ⟨c, hc, hpc⟩ := hcovF pt hptn
    have huniq : ∀ c2 ∈ stF.active, pt ∈ stF.clusters c2 → c2 = c := by
      intro c2 hc2 hp2
      by_contra hne2
      exact hdisjF c2 hc2 c hc hne2 pt hp2 hpc
    have happ := assignFold_mem stF.clusters stF.active
      ((fun _ => 0 : ℕ → ℕ), 1) c pt hndF hc hpc huniq
    rw [happ] at hval
    have hidx : stF.active.indexOf c < k :=
      hlenF ▸ List.indexOf_lt_length.mpr hc
    omega
  · -- hierarchical surjectivity
    intro v hv1 hvk
    have ht : v - 1 < stF.active.length := by omega
    set c : ℕ := stF.active.get ⟨v - 1, ht⟩ with hcdef
    have hc : c ∈ stF.active := stF.active.get_mem (v - 1) ht
    obtain ⟨pt, hpc⟩ := List.exists_mem_of_ne_nil _ (hneF c hc)
    have hptn : pt < n := hboundF c hc pt hpc
    have huniq : ∀ c2 ∈ stF.active, pt ∈ stF.clusters c2 → c2 = c := by
      intro c2 hc2 hp2
      by_contra hne2
      exact hdisjF c2 hc2 c hc hne2 pt hp2 hpc
    have happ := assignFold_mem stF.clusters stF.active
      ((fun _ => 0 : ℕ → ℕ), 1) c pt hndF hc hpc huniq
    have hidx : stF.active.indexOf c = v - 1 :=
      nodup_indexOf_get stF.active hndF (v - 1) ht
    rw [hhier]
    refine List.mem_map.mpr ⟨pt, List.mem_range.mpr hptn, ?_⟩
    rw [happ, hidx]
    omega

/-- Witness for the amended C1 at the all-zero matrix over two
observations with `k = 2` and the default linkage. -/
theorem C1_amended_partition_validity_witness :
    (pam 2 (fun _ _ => (0 : ℚ)) 2).length = 2 ∧
    (∀ v ∈ pam 2 (fun _ _ => (0 : ℚ)) 2, 1 ≤ v ∧ v ≤ 2) ∧
    (hierarchical 2 (fun _ _ => (0 : ℚ)) 2 "average").length = 2 ∧
    (∀ v ∈ hierarchical 2 (fun _ _ => (0 : ℚ)) 2 "average", 1 ≤ v ∧ v ≤ 2) ∧
    (∀ v, 1 ≤ v → v ≤ 2 →
      v ∈ hierarchical 2 (fun _ _ => (0 : ℚ)) 2 "average") :=
  C1_amended_partition_validity 2 2 (fun _ _ => (0 : ℚ)) "average"
    (by decide) (by decide)

/-- Every pair produced by the nested loops has `i < j < n`. -/
lemma pairList_mem (n : ℕ) : ∀ p ∈ pairList n, p.1 < p.2 ∧ p.2 < n := by
  intro p hp
  simp only [pairList, List.mem_flatMap, List.mem_map, List.mem_range,
    List.mem_range'] at hp
  obtain ⟨i, hi, j, hj, rfl⟩ := hp
  omega

/-- The matrix builder yields a symmetric zero-diagonal matrix whose
off-diagonal entries satisfy any property holding for `0` and for every
generated value. -/
lemma buildDistMatrix_inv (n : ℕ) (g : ℕ → ℕ → ℝ) (P : ℝ → Prop) (hP0 : P 0)
    (hPg : ∀ i j, i < j → j < n → P (g i j)) :
    (∀ i, buildDistMatrix n g i i = 0) ∧
    (∀ i j, buildDistMatrix n g i j = buildDistMatrix n g j i) ∧
    (∀ i j, P (buildDistMatrix n g i j)) := by
  have key : (fun M : ℕ → ℕ → ℝ =>
      (∀ i, M i i = 0) ∧ (∀ i j, M i j = M j i) ∧ (∀ i j, P (M i j)))
      (buildDistMatrix n g) := by
    refine foldl_preserve_mem
      (fun M : ℕ → ℕ → ℝ =>
        (∀ i, M i i = 0) ∧ (∀ i j, M i j = M j i) ∧ (∀ i j, P (M i j)))
      (pairList n) _ ?_ _ ?_
    · intro M p hp hM
      obtain ⟨hlt, hn⟩ := pairList_mem n p hp
      obtain ⟨hdiag, hsymm, hPm⟩ := hM
      refine ⟨?_, ?_, ?_⟩
      · intro i
        show setSym M p.1 p.2 (g p.1 p.2) i i = 0
        unfold setSym
        rw [if_neg (by omega), if_neg (by omega)]
        exact hdiag i
      · intro i j
        show setSym M p.1 p.2 (g p.1 p.2) i j = setSym M p.1 p.2 (g p.1 p.2) j i
        unfold setSym
        by_cases h1 : i = p.1 ∧ j = p.2
        · rw [if_pos h1, if_neg (by omega), if_pos ⟨h1.2, h1.1⟩]
        · rw [if_neg h1]
          by_cases h2 : i = p.2 ∧ j = p.1
          · rw [if_pos h2, if_pos ⟨h2.2, h2.1⟩]
          · rw [if_neg h2, if_neg (fun h : j = p.1 ∧ i = p.2 => h2 ⟨h.2, h.1⟩),
              if_neg (fun h : j = p.2 ∧ i = p.1 => h1 ⟨h.2, h.1⟩)]
            exact hsymm i j
      · intro i j
        show P (setSym M p.1 p.2 (g p.1 p.2) i j)
        unfold setSym
        by_cases h1 : i = p.1 ∧ j = p.2
        · rw [if_pos h1]; exact hPg p.1 p.2 hlt hn
        · rw [if_neg h1]
          by_cases h2 : i = p.2 ∧ j = p.1
          · rw [if_pos h2]; exact hPg p.1 p.2 hlt hn
          · rw [if_neg h2]; exact hPm i j
    · exact ⟨fun _ => rfl, fun _ _ => rfl, fun _ _ => hP0⟩
  exact key

/-- Hamming distances are sums of non-negative mismatch weights. -/
lemma hammingDistance_nonneg (a b : List String) (w : Bool) (lam : ℝ) :
    0 ≤ hammingDistance a b w lam := by
  show 0 ≤ (List.range (max a.length b.length)).foldl _ 0
  refine foldl_preserve_mem (fun x : ℝ => 0 ≤ x)
    (List.range (max a.length b.length)) _ ?_ 0 le_rfl
  intro s i _ hs
  dsimp only
  split
  · have hw : (0 : ℝ) ≤ if w then Real.exp (-lam * i) else 1 := by
      split
      · exact le_of_lt (Real.exp_pos _)
      · norm_num
    linarith
  · exact hs

/-- Damerau-Levenshtein distances are non-negative. -/
lemma dlDistance_nonneg (a b : List String) (la lb : Option ℕ) :
    0 ≤ dlDistance a b la lb := by
  unfold dlDistance
  by_cases hm : la.getD a.length = 0
  · rw [if_pos hm]; positivity
  · rw [if_neg hm]
    by_cases hn : lb.getD b.length = 0
    · rw [if_pos hn]; positivity
    · rw [if_neg hn]
      exact dlTable_nonneg a b _ (by positivity) _ _ _ le_rfl

/-- `getD` against a list of bounded entries with a bounded default is
bounded. -/
lemma getD_le_of_mem_le (l : List ℕ) (d c : ℕ) (hl : ∀ x ∈ l, x ≤ c)
    (hd : d ≤ c) (j : ℕ) : l.getD j d ≤ c := by
  rcases Nat.lt_or_ge j l.length with hj | hj
  · rw [List.getD_eq_getElem l d hj]
    exact hl _ (List.getElem_mem hj)
  · rw [List.getD_eq_default l d hj]
    exact hd

/-- Bounded rows stay bounded through one LCS row update. -/
lemma lcsRow_bound (a b : List String) (c : ℕ) (prev : List ℕ)
    (hprev : ∀ x ∈ prev, x ≤ c) (i : ℕ) (L : List ℕ) :
    ∀ x ∈ L.foldl
      (fun curr j =>
        let v := if a.getD (i - 1) "" = b.getD (j - 1) "" then
            prev.getD (j - 1) 0 + 1
          else max (prev.getD j 0) (curr.getD (j - 1) 0)
        curr ++ [v])
      [0], x ≤ c + 1 := by
  refine foldl_preserve_mem (fun curr : List ℕ => ∀ x ∈ curr, x ≤ c + 1) L _ ?_ _ ?_
  · intro curr j _ hc x hx
    dsimp only at hx
    rcases List.mem_append.mp hx with hx | hx
    · exact hc x hx
    · rw [List.mem_singleton.mp hx]
      split
      · have := getD_le_of_mem_le prev 0 c hprev (Nat.zero_le c) (j - 1)
        omega
      · have h1 := getD_le_of_mem_le prev 0 c hprev (Nat.zero_le c) j
        have h2 := getD_le_of_mem_le curr 0 (c + 1) hc (Nat.zero_le _) (j - 1)
        omega
  · intro x hx
    rw [List.mem_singleton.mp hx]
    exact Nat.zero_le _

/-- Entries of the LCS table after a block of row updates are bounded by
the number of rows processed. -/
lemma lcsRows_bound (a b : List String) (Linner : List ℕ) :
    ∀ (L : List ℕ) (prev : List ℕ) (c : ℕ), (∀ x ∈ prev, x ≤ c) →
      ∀ x ∈ L.foldl
        (fun prev i =>
          Linner.foldl
            (fun curr j =>
              let v := if a.getD (i - 1) "" = b.getD (j - 1) "" then
                  prev.getD (j - 1) 0 + 1
                else max (prev.getD j 0) (curr.getD (j - 1) 0)
              curr ++ [v])
            [0])
        prev, x ≤ c + L.length := by
  intro L
  induction L with
  | nil =>
    intro prev c h x hx
    simpa using h x hx
  | cons hd tl ih =>
    intro prev c h
    rw [List.foldl_cons]
    intro x hx
    have hstep := lcsRow_bound a b c prev h hd Linner
    have := ih _ (c + 1) hstep x hx
    simp only [List.length_cons]
    omega

/-- The LCS length never exceeds the first effective length. -/
lemma lcsLen_le (a b : List String) (m n : ℕ) : lcsLen a b m n ≤ m := by
  show (List.getD _ n 0) ≤ m
  have hrows := lcsRows_bound a b (List.range' 1 n) (List.range' 1 m)
    (List.replicate (n + 1) 0) 0
    (by intro x hx; rw [List.eq_of_mem_replicate hx])
  refine getD_le_of_mem_le _ 0 m ?_ (Nat.zero_le m) n
  intro x hx
  have := hrows x hx
  simpa using this

/-- `lcsDistance` is non-negative. -/
lemma lcsDistance_nonneg (a b : List String) (la lb : Option ℕ) :
    0 ≤ lcsDistance a b la lb := by
  show (0 : ℤ) ≤ ((max (la.getD a.length) (lb.getD b.length) : ℕ) : ℤ) -
    lcsLen a b (la.getD a.length) (lb.getD b.length)
  have h2 : lcsLen a b (la.getD a.length) (lb.getD b.length) ≤
      max (la.getD a.length) (lb.getD b.length) :=
    le_trans (lcsLen_le a b _ _) (le_max_left _ _)
  omega

/-- Jaccard distances lie in `[0, 1]`. -/
lemma jaccardDistance_bounds (a b : List String) (la lb : Option ℕ) :
    0 ≤ jaccardDistance a b la lb ∧ jaccardDistance a b la lb ≤ 1 := by
  simp only [jaccardDistance]
  set A := (gramsList a la 1).toFinset with hA
  set B := (gramsList b lb 1).toFinset with hB
  by_cases hu : A.card + B.card - (A ∩ B).card = 0
  · rw [if_pos hu]
    norm_num
  · rw [if_neg hu]
    have hiA : (A ∩ B).card ≤ A.card := Finset.card_le_card Finset.inter_subset_left
    have hiB : (A ∩ B).card ≤ B.card := Finset.card_le_card Finset.inter_subset_right
    have hle : (A ∩ B).card ≤ A.card + B.card - (A ∩ B).card := by omega
    have hupos : (0 : ℚ) < ((A.card + B.card - (A ∩ B).card : ℕ) : ℚ) := by
      exact_mod_cast Nat.pos_of_ne_zero hu
    constructor
    · have hq : ((A ∩ B).card : ℚ) / (A.card + B.card - (A ∩ B).card : ℕ) ≤ 1 := by
        rw [div_le_one hupos]
        exact_mod_cast hle
      linarith
    · have hq : (0 : ℚ) ≤ ((A ∩ B).card : ℚ) / (A.card + B.card - (A ∩ B).card : ℕ) := by
        positivity
      linarith



/-- Cosine distances lie in `[0, 1]`. -/
lemma cosineDistance_bounds (a b : List String) (la lb : Option ℕ) :
    0 ≤ cosineDistance a b la lb ∧ cosineDistance a b la lb ≤ 1 := by
  simp only [cosineDistance]
  by_cases h0 : (∑ g ∈ qgramKeys a b la lb, qgramCount a la 1 g * qgramCount a la 1 g) = 0 ∨
      (∑ g ∈ qgramKeys a b la lb, qgramCount b lb 1 g * qgramCount b lb 1 g) = 0
  · rw [if_pos h0]
    norm_num
  · rw [if_neg h0]
    obtain ⟨hA, hB⟩ := not_or.mp h0
    have hdot : ((∑ g ∈ qgramKeys a b la lb,
        qgramCount a la 1 g * qgramCount b lb 1 g : ℕ) : ℝ) =
        ∑ g ∈ qgramKeys a b la lb,
          (qgramCount a la 1 g : ℝ) * (qgramCount b lb 1 g : ℝ) := by
      push_cast
      rfl
    have hA2 : ((∑ g ∈ qgramKeys a b la lb,
        qgramCount a la 1 g * qgramCount a la 1 g : ℕ) : ℝ) =
        ∑ g ∈ qgramKeys a b la lb, (qgramCount a la 1 g : ℝ) ^ 2 := by
      push_cast
      exact Finset.sum_congr rfl (fun g _ => (pow_two _).symm)
    have hB2 : ((∑ g ∈ qgramKeys a b la lb,
        qgramCount b lb 1 g * qgramCount b lb 1 g : ℕ) : ℝ) =
        ∑ g ∈ qgramKeys a b la lb, (qgramCount b lb 1 g : ℝ) ^ 2 := by
      push_cast
      exact Finset.sum_congr rfl (fun g _ => (pow_two _).symm)
    have hCS := Real.sum_mul_le_sqrt_mul_sqrt (qgramKeys a b la lb)
      (fun g => (qgramCount a la 1 g : ℝ)) (fun g => (qgramCount b lb 1 g : ℝ))
    have h1 : ((∑ g ∈ qgramKeys a b la lb,
        qgramCount a la 1 g * qgramCount b lb 1 g : ℕ) : ℝ) ≤
        Real.sqrt ((∑ g ∈ qgramKeys a b la lb,
          qgramCount a la 1 g * qgramCount a la 1 g : ℕ) : ℝ) *
        Real.sqrt ((∑ g ∈ qgramKeys a b la lb,
          qgramCount b lb 1 g * qgramCount b lb 1 g : ℕ) : ℝ) := by
      rw [hdot, hA2, hB2]
      exact hCS
    have hApos : (0 : ℝ) < Real.sqrt ((∑ g ∈ qgramKeys a b la lb,
        qgramCount a la 1 g * qgramCount a la 1 g : ℕ) : ℝ) :=
      Real.sqrt_pos.mpr (by exact_mod_cast Nat.pos_of_ne_zero hA)
    have hBpos : (0 : ℝ) < Real.sqrt ((∑ g ∈ qgramKeys a b la lb,
        qgramCount b lb 1 g * qgramCount b lb 1 g : ℕ) : ℝ) :=
      Real.sqrt_pos.mpr (by exact_mod_cast Nat.pos_of_ne_zero hB)
    have hden : (0 : ℝ) < Real.sqrt ((∑ g ∈ qgramKeys a b la lb,
        qgramCount a la 1 g * qgramCount a la 1 g : ℕ) : ℝ) *
        Real.sqrt ((∑ g ∈ qgramKeys a b la lb,
          qgramCount b lb 1 g * qgramCount b lb 1 g : ℕ) : ℝ) :=
      mul_pos hApos hBpos
    have hq1 : ((∑ g ∈ qgramKeys a b la lb,
        qgramCount a la 1 g * qgramCount b lb 1 g : ℕ) : ℝ) /
        (Real.sqrt ((∑ g ∈ qgramKeys a b la lb,
          qgramCount a la 1 g * qgramCount a la 1 g : ℕ) : ℝ) *
        Real.sqrt ((∑ g ∈ qgramKeys a b la lb,
          qgramCount b lb 1 g * qgramCount b lb 1 g : ℕ) : ℝ)) ≤ 1 :=
      (div_le_one hden).mpr h1
    have hq0 : (0 : ℝ) ≤ ((∑ g ∈ qgramKeys a b la lb,
        qgramCount a la 1 g * qgramCount b lb 1 g : ℕ) : ℝ) /
        (Real.sqrt ((∑ g ∈ qgramKeys a b la lb,
          qgramCount a la 1 g * qgramCount a la 1 g : ℕ) : ℝ) *
        Real.sqrt ((∑ g ∈ qgramKeys a b la lb,
          qgramCount b lb 1 g * qgramCount b lb 1 g : ℕ) : ℝ)) :=
      div_nonneg (Nat.cast_nonneg _) (le_of_lt hden)
    constructor
    · linarith
    · linarith

/-- Manhattan distances are sums of absolute differences. -/
lemma manhattanDistance_nonneg (a b : List ℚ) : 0 ≤ manhattanDistance a b := by
  unfold manhattanDistance
  refine foldl_preserve_mem (fun x : ℚ => 0 ≤ x) (List.range a.length) _ ?_ 0 le_rfl
  intro s i _ hs
  dsimp only
  have := abs_nonneg (a.getD i 0 - b.getD i 0)
  linarith

/-- Setting a currently-false flag to `true` keeps the length and bumps
the `true` count by one. -/
lemma count_set_true :
    ∀ (bm : List Bool) (j : ℕ), bm.getD j true = false →
      (bm.set j true).length = bm.length ∧
      (bm.set j true).count true = bm.count true + 1 := by
  intro bm
  induction bm with
  | nil =>
    intro j h
    exact absurd h (by simp [List.getD])
  | cons x rest ih =>
    intro j h
    cases j with
    | zero =>
      have hx : x = false := h
      subst hx
      refine ⟨rfl, ?_⟩
      simp [List.count_cons]
    | succ j =>
      have hrest := ih j h
      refine ⟨by simp [hrest.1], ?_⟩
      cases x <;> simp [List.count_cons, hrest.2]

/-- One step of the match-finding pass, with its `let`s resolved. -/
lemma jwMatchStep_eq (a b : List String) (n W : ℕ) (st : JwState) (i : ℕ) :
    jwMatchStep a b n W st i =
      match jwFindMatch (a.getD i "") b st.bm (i - W) (min (n - 1) (i + W)) with
      | some j => ⟨st.bm.set j true, st.am ++ [true], st.mcount + 1⟩
      | none => ⟨st.bm, st.am ++ [false], st.mcount⟩ := rfl

/-- The match-finding pass keeps `bMatched` at length `n` with exactly
`matches` flags set. -/
lemma jwMatchFold_bm (a b : List String) (m n W : ℕ) :
    (jwMatchFold a b m n W).bm.length = n ∧
    (jwMatchFold a b m n W).bm.count true = (jwMatchFold a b m n W).mcount := by
  have key : (fun st : JwState => st.bm.length = n ∧ st.bm.count true = st.mcount)
      (jwMatchFold a b m n W) := by
    refine foldl_preserve_mem
      (fun st : JwState => st.bm.length = n ∧ st.bm.count true = st.mcount)
      (List.range m) _ ?_ _ ?_
    · intro st i _ hst
      rw [jwMatchStep_eq]
      cases hj : jwFindMatch (a.getD i "") b st.bm (i - W) (min (n - 1) (i + W)) with
      | none => exact hst
      | some j =>
        have hfind := List.find?_some hj
        have hflag : st.bm.getD j true = false := by
          have hb := (Bool.and_eq_true _ _).mp hfind
          have hbnot := hb.1
          cases hbm : st.bm.getD j true
          · rfl
          · rw [hbm] at hbnot
            exact absurd hbnot (by simp)
        obtain ⟨hl, hc⟩ := count_set_true st.bm j hflag
        refine ⟨?_, ?_⟩
        · show (st.bm.set j true).length = n
          rw [hl]
          exact hst.1
        · show (st.bm.set j true).count true = st.mcount + 1
          rw [hc, hst.2]
    · exact ⟨List.length_replicate n false,
        List.count_eq_zero.mpr (by simp [List.mem_replicate])⟩
  exact key

/-- Each row of the match-finding pass appends exactly one `aMatched`
flag. -/
lemma jwMatchFold_am_length (a b : List String) (n W : ℕ) :
    ∀ (l : List ℕ) (st : JwState),
      (l.foldl (jwMatchStep a b n W) st).am.length = st.am.length + l.length := by
  intro l
  induction l with
  | nil => intro st; rfl
  | cons x xs ih =>
    intro st
    rw [List.foldl_cons, ih]
    have hstep : (jwMatchStep a b n W st x).am.length = st.am.length + 1 := by
      rw [jwMatchStep_eq]
      cases hj : jwFindMatch (a.getD x "") b st.bm (x - W) (min (n - 1) (x + W)) with
      | none => simp
      | some j => simp
    rw [hstep]
    simp only [List.length_cons]
    omega

/-- The match counter never exceeds the number of processed rows. -/
lemma jwMatchFold_mcount_le (a b : List String) (m n W : ℕ) :
    (jwMatchFold a b m n W).mcount ≤ m := by
  have key : (fun st : JwState => st.mcount ≤ st.am.length)
      (jwMatchFold a b m n W) := by
    refine foldl_preserve_mem (fun st : JwState => st.mcount ≤ st.am.length)
      (List.range m) _ ?_ _ ?_
    · intro st i _ hst
      rw [jwMatchStep_eq]
      cases hj : jwFindMatch (a.getD i "") b st.bm (i - W) (min (n - 1) (i + W)) with
      | none =>
        show st.mcount ≤ (st.am ++ [false]).length
        rw [List.length_append]
        exact Nat.le_succ_of_le hst
      | some j =>
        show st.mcount + 1 ≤ (st.am ++ [true]).length
        rw [List.length_append]
        exact Nat.succ_le_succ hst
    · exact Nat.le_refl 0
  have hlen := jwMatchFold_am_length a b n W (List.range m)
    ⟨List.replicate n false, [], 0⟩
  have key2 : (jwMatchFold a b m n W).mcount ≤ (jwMatchFold a b m n W).am.length :=
    key
  have ham : (jwMatchFold a b m n W).am.length = m := by
    show (List.foldl (jwMatchStep a b n W)
      ⟨List.replicate n false, [], 0⟩ (List.range m)).am.length = m
    rw [hlen]
    simp
  omega



/-- The masked-token list has one entry per set flag position. -/
lemma maskTokens_length (l : List String) (flags : List Bool) (len : ℕ) :
    (maskTokens l flags len).length =
      (List.range len).countP (fun i => flags.getD i false) := by
  unfold maskTokens
  have key : ∀ L : List ℕ,
      (L.filterMap (fun i => if flags.getD i false then some (l.getD i "")
        else none)).length = L.countP (fun i => flags.getD i false) := by
    intro L
    induction L with
    | nil => rfl
    | cons x xs ih =>
      rw [List.countP_cons]
      by_cases hx : flags.getD x false
      · rw [List.filterMap_cons_some (by rw [if_pos hx]),
          List.length_cons, if_pos hx, ih]
      · rw [List.filterMap_cons_none (by rw [if_neg hx]), if_neg hx, ih]
        omega
  exact key (List.range len)

/-- Counting set positions over the index range equals counting `true`
entries. -/
lemma countP_range_getD (bm : List Bool) :
    (List.range bm.length).countP (fun i => bm.getD i false) = bm.count true := by
  induction bm with
  | nil => rfl
  | cons x rest ih =>
    show (List.range (rest.length + 1)).countP _ = _
    rw [List.range_succ_eq_map, List.countP_cons, List.countP_map]
    have hcomp : (List.range rest.length).countP
        ((fun i => (x :: rest).getD i false) ∘ Nat.succ) =
        (List.range rest.length).countP (fun i => rest.getD i false) := by
      refine List.countP_congr ?_
      intro i _
      rfl
    rw [hcomp, ih]
    cases x <;> simp [List.count_cons]

/-- The transposition count never exceeds the match count. -/
lemma jwTranspositions_le (a b : List String) (m n : ℕ) (st : JwState)
    (hbm : st.bm.length = n) (hc : st.bm.count true = st.mcount) :
    jwTranspositions a b m n st ≤ st.mcount := by
  unfold jwTranspositions
  calc ((maskTokens a st.am m).zip (maskTokens b st.bm n)).countP
        (fun p => decide (p.1 ≠ p.2))
      ≤ ((maskTokens a st.am m).zip (maskTokens b st.bm n)).length :=
        List.countP_le_length _
    _ ≤ (maskTokens b st.bm n).length := by
        rw [List.length_zip]
        exact min_le_right _ _
    _ = (List.range n).countP (fun i => st.bm.getD i false) :=
        maskTokens_length b st.bm n
    _ = st.bm.count true := by rw [← hbm, countP_range_getD]
    _ = st.mcount := hc



/-- Arithmetic core of the Jaro bound: with a positive match count at
most either length and a transposition count at most the match count,
the similarity lies in `[0, 1]`, hence so does one minus it. -/
lemma jaroSim_bounds (mq nq Mq tq : ℚ) (hm : 0 < mq) (hn : 0 < nq) (hM : 0 < Mq)
    (hMm : Mq ≤ mq) (hMn : Mq ≤ nq) (ht0 : 0 ≤ tq) (htM : tq ≤ Mq) :
    0 ≤ 1 - (Mq / mq + Mq / nq + (Mq - tq / 2) / Mq) / 3 ∧
    1 - (Mq / mq + Mq / nq + (Mq - tq / 2) / Mq) / 3 ≤ 1 := by
  have hA1 : Mq / mq ≤ 1 := (div_le_one hm).mpr hMm
  have hB1 : Mq / nq ≤ 1 := (div_le_one hn).mpr hMn
  have hC1 : (Mq - tq / 2) / Mq ≤ 1 := (div_le_one hM).mpr (by linarith)
  have hA0 : 0 ≤ Mq / mq := div_nonneg (le_of_lt hM) (le_of_lt hm)
  have hB0 : 0 ≤ Mq / nq := div_nonneg (le_of_lt hM) (le_of_lt hn)
  have hC0 : 0 ≤ (Mq - tq / 2) / Mq := div_nonneg (by linarith) (le_of_lt hM)
  constructor
  · linarith
  · linarith

/-- Jaro (Winkler with `p = 0`) distances lie in `[0, 1]`. -/
lemma jaroWinklerDistance_bounds (a b : List String) (la lb : Option ℕ) :
    0 ≤ jaroWinklerDistance a b 0 la lb ∧ jaroWinklerDistance a b 0 la lb ≤ 1 := by
  simp only [jaroWinklerDistance]
  by_cases h1 : la.getD a.length = 0 ∧ lb.getD b.length = 0
  · rw [if_pos h1]
    norm_num
  · rw [if_neg h1]
    by_cases h2 : la.getD a.length = 0 ∨ lb.getD b.length = 0
    · rw [if_pos h2]
      norm_num
    · rw [if_neg h2]
      by_cases h3 : (jwMatchFold a b (la.getD a.length) (lb.getD b.length)
          (max (la.getD a.length) (lb.getD b.length) / 2 - 1)).mcount = 0
      · rw [if_pos h3]
        norm_num
      · rw [if_neg h3, if_pos trivial]
        obtain ⟨hm0, hn0⟩ := not_or.mp h2
        obtain ⟨hbml, hbmc⟩ := jwMatchFold_bm a b (la.getD a.length)
          (lb.getD b.length) (max (la.getD a.length) (lb.getD b.length) / 2 - 1)
        have hmcm := jwMatchFold_mcount_le a b (la.getD a.length)
          (lb.getD b.length) (max (la.getD a.length) (lb.getD b.length) / 2 - 1)
        have hmcn : (jwMatchFold a b (la.getD a.length) (lb.getD b.length)
            (max (la.getD a.length) (lb.getD b.length) / 2 - 1)).mcount ≤
            lb.getD b.length := by
          have h := List.count_le_length true
            (jwMatchFold a b (la.getD a.length) (lb.getD b.length)
              (max (la.getD a.length) (lb.getD b.length) / 2 - 1)).bm
          rw [hbmc, hbml] at h
          exact h
        have htle := jwTranspositions_le a b (la.getD a.length) (lb.getD b.length)
          (jwMatchFold a b (la.getD a.length) (lb.getD b.length)
            (max (la.getD a.length) (lb.getD b.length) / 2 - 1)) hbml hbmc
        exact jaroSim_bounds _ _ _ _
          (by exact_mod_cast Nat.pos_of_ne_zero hm0)
          (by exact_mod_cast Nat.pos_of_ne_zero hn0)
          (by exact_mod_cast Nat.pos_of_ne_zero h3)
          (by exact_mod_cast hmcm)
          (by exact_mod_cast hmcn)
          (by positivity)
          (by exact_mod_cast htle)



/-- Every dispatched sequence metric is non-negative, and the `jw`,
`cosine` and `jaccard` metrics are additionally bounded by `1`. -/
lemma distanceFuncs_spec (diss : String) (f : DistFunc)
    (hf : distanceFuncs diss = some f) :
    (∀ x y la lb, 0 ≤ f x y la lb) ∧
    ((diss = "jw" ∨ diss = "cosine" ∨ diss = "jaccard") →
      ∀ x y la lb, f x y la lb ≤ 1) := by
  unfold distanceFuncs at hf
  split at hf
  case h_1 =>
    injection hf with hf
    subst hf
    refine ⟨fun x y _ _ => hammingDistance_nonneg x y false 1, ?_⟩
    intro h
    rcases h with h | h | h <;> exact absurd h (by decide)
  case h_2 =>
    injection hf with hf
    subst hf
    refine ⟨fun x y la lb => Nat.cast_nonneg _, ?_⟩
    intro h
    rcases h with h | h | h <;> exact absurd h (by decide)
  case h_3 =>
    injection hf with hf
    subst hf
    refine ⟨fun x y la lb => Nat.cast_nonneg _, ?_⟩
    intro h
    rcases h with h | h | h <;> exact absurd h (by decide)
  case h_4 =>
    injection hf with hf
    subst hf
    refine ⟨fun x y la lb => by dsimp only; exact_mod_cast dlDistance_nonneg x y la lb, ?_⟩
    intro h
    rcases h with h | h | h <;> exact absurd h (by decide)
  case h_5 =>
    injection hf with hf
    subst hf
    refine ⟨fun x y la lb => by dsimp only; exact_mod_cast lcsDistance_nonneg x y la lb, ?_⟩
    intro h
    rcases h with h | h | h <;> exact absurd h (by decide)
  case h_6 =>
    injection hf with hf
    subst hf
    refine ⟨fun x y la lb => Nat.cast_nonneg _, ?_⟩
    intro h
    rcases h with h | h | h <;> exact absurd h (by decide)
  case h_7 =>
    injection hf with hf
    subst hf
    exact ⟨fun x y la lb => (cosineDistance_bounds x y la lb).1,
      fun _ x y la lb => (cosineDistance_bounds x y la lb).2⟩
  case h_8 =>
    injection hf with hf
    subst hf
    exact ⟨fun x y la lb => by dsimp only; exact_mod_cast (jaccardDistance_bounds x y la lb).1,
      fun _ x y la lb => by dsimp only; exact_mod_cast (jaccardDistance_bounds x y la lb).2⟩
  case h_9 =>
    injection hf with hf
    subst hf
    exact ⟨fun x y la lb => by dsimp only; exact_mod_cast (jaroWinklerDistance_bounds x y la lb).1,
      fun _ x y la lb => by dsimp only; exact_mod_cast (jaroWinklerDistance_bounds x y la lb).2⟩
  case h_10 => exact absurd hf (by simp)



/-- Claim C4.  Every distance matrix the engine builds (on the sequence
path, for every dispatched dissimilarity, and on the numeric path, for
every metric name) has a zero diagonal, is symmetric, and has only
non-negative entries; for `jw`, `cosine` and `jaccard` every entry is
additionally at most `1`. -/
theorem C4_distance_matrix_properties :
    (∀ (sequences : List (List String)) (diss : String) (w : Bool) (lam : ℝ)
        (M : ℕ → ℕ → ℝ),
      computeDistanceMatrix sequences diss w lam = .ok M →
      (∀ i, M i i = 0) ∧ (∀ i j, M i j = M j i) ∧ (∀ i j, 0 ≤ M i j) ∧
      ((diss = "jw" ∨ diss = "cosine" ∨ diss = "jaccard") →
        ∀ i j, M i j ≤ 1)) ∧
    (∀ (data : List (List ℚ)) (metric : String),
      (∀ i, computeNumericDistanceMatrix data metric i i = 0) ∧
      (∀ i j, computeNumericDistanceMatrix data metric i j =
        computeNumericDistanceMatrix data metric j i) ∧
      (∀ i j, 0 ≤ computeNumericDistanceMatrix data metric i j)) := by
  constructor
  · intro sequences diss w lam M hM
    simp only [computeDistanceMatrix] at hM
    by_cases hh : diss = "hamming"
    · subst hh
      rw [if_pos rfl] at hM
      injection hM with hM
      subst hM
      obtain ⟨hd, hs, hP⟩ := buildDistMatrix_inv sequences.length
        (fun i j => hammingDistance (sequences.getD i []) (sequences.getD j [])
          w lam)
        (fun x => 0 ≤ x) le_rfl
        (fun i j _ _ => hammingDistance_nonneg _ _ w lam)
      refine ⟨hd, hs, hP, ?_⟩
      intro hjw
      rcases hjw with h | h | h <;> exact absurd h (by decide)
    · rw [if_neg hh] at hM
      cases hdf : distanceFuncs diss with
      | none =>
        rw [hdf] at hM
        exact absurd hM (by simp)
      | some f =>
        rw [hdf] at hM
        injection hM with hM
        subst hM
        obtain ⟨hnn, hle⟩ := distanceFuncs_spec diss f hdf
        obtain ⟨hd, hs, hP⟩ := buildDistMatrix_inv sequences.length
          (fun i j => f (sequences.getD i []) (sequences.getD j [])
            (some ((sequences.map effectiveLength).getD i 0))
            (some ((sequences.map effectiveLength).getD j 0)))
          (fun x => 0 ≤ x) le_rfl (fun i j _ _ => hnn _ _ _ _)
        refine ⟨hd, hs, hP, ?_⟩
        intro hjw
        obtain ⟨_, _, hP1⟩ := buildDistMatrix_inv sequences.length
          (fun i j => f (sequences.getD i []) (sequences.getD j [])
            (some ((sequences.map effectiveLength).getD i 0))
            (some ((sequences.map effectiveLength).getD j 0)))
          (fun x => x ≤ 1) (by norm_num)
          (fun i j _ _ => hle hjw _ _ _ _)
        exact hP1
  · intro data metric
    simp only [computeNumericDistanceMatrix]
    exact buildDistMatrix_inv data.length
      (fun i j => (if metric = "manhattan" then
          fun a b => ((manhattanDistance a b : ℚ) : ℝ)
        else euclideanDistance) (data.getD i []) (data.getD j []))
      (fun x => 0 ≤ x) le_rfl
      (fun i j _ _ => by
        dsimp only
        split
        · dsimp only
          exact_mod_cast manhattanDistance_nonneg _ _
        · exact Real.sqrt_nonneg _)



/-- Witness for C4: the `jw` matrix of two one-token sequences and the
numeric matrix of two one-entry rows under an unknown metric name. -/
theorem C4_distance_matrix_properties_witness :
    ((∀ i, buildDistMatrix ([["x"], ["y"]] : List (List String)).length
      (fun i j => ((jaroWinklerDistance (([["x"], ["y"]] : List (List String)).getD i [])
        (([["x"], ["y"]] : List (List String)).getD j []) 0
        (some ((([["x"], ["y"]] : List (List String)).map effectiveLength).getD i 0))
        (some ((([["x"], ["y"]] : List (List String)).map effectiveLength).getD j 0)) : ℚ) : ℝ))
      i i = 0) ∧
    (∀ i j, buildDistMatrix ([["x"], ["y"]] : List (List String)).length
      (fun i j => ((jaroWinklerDistance (([["x"], ["y"]] : List (List String)).getD i [])
        (([["x"], ["y"]] : List (List String)).getD j []) 0
        (some ((([["x"], ["y"]] : List (List String)).map effectiveLength).getD i 0))
        (some ((([["x"], ["y"]] : List (List String)).map effectiveLength).getD j 0)) : ℚ) : ℝ))
      i j = buildDistMatrix ([["x"], ["y"]] : List (List String)).length
      (fun i j => ((jaroWinklerDistance (([["x"], ["y"]] : List (List String)).getD i [])
        (([["x"], ["y"]] : List (List String)).getD j []) 0
        (some ((([["x"], ["y"]] : List (List String)).map effectiveLength).getD i 0))
        (some ((([["x"], ["y"]] : List (List String)).map effectiveLength).getD j 0)) : ℚ) : ℝ))
      j i) ∧
    (∀ i j, 0 ≤ buildDistMatrix ([["x"], ["y"]] : List (List String)).length
      (fun i j => ((jaroWinklerDistance (([["x"], ["y"]] : List (List String)).getD i [])
        (([["x"], ["y"]] : List (List String)).getD j []) 0
        (some ((([["x"], ["y"]] : List (List String)).map effectiveLength).getD i 0))
        (some ((([["x"], ["y"]] : List (List String)).map effectiveLength).getD j 0)) : ℚ) : ℝ))
      i j) ∧
    (("jw" = "jw" ∨ "jw" = "cosine" ∨ "jw" = "jaccard") →
      ∀ i j, buildDistMatrix ([["x"], ["y"]] : List (List String)).length
      (fun i j => ((jaroWinklerDistance (([["x"], ["y"]] : List (List String)).getD i [])
        (([["x"], ["y"]] : List (List String)).getD j []) 0
        (some ((([["x"], ["y"]] : List (List String)).map effectiveLength).getD i 0))
        (some ((([["x"], ["y"]] : List (List String)).map effectiveLength).getD j 0)) : ℚ) : ℝ))
      i j ≤ 1)) ∧
    ((∀ i, computeNumericDistanceMatrix [[(0 : ℚ)], [1]] "banana" i i = 0) ∧
    (∀ i j, computeNumericDistanceMatrix [[(0 : ℚ)], [1]] "banana" i j =
      computeNumericDistanceMatrix [[(0 : ℚ)], [1]] "banana" j i) ∧
    (∀ i j, 0 ≤ computeNumericDistanceMatrix [[(0 : ℚ)], [1]] "banana" i j)) :=
  ⟨C4_distance_matrix_properties.1 [["x"], ["y"]] "jw" false 0 _ rfl,
   C4_distance_matrix_properties.2 [[(0 : ℚ)], [1]] "banana"⟩

end Tna
